import Mathlib

/-!
Embecosm GDB server: RSP codecs, string helpers and packet classes.

A shallow embedding of `server/Utils.cpp` (class `Utils`) and of the inline
members of `lib/server/RspPacket.h`, and the properties of the codecs, the
string helpers and the packet classes.

Conventions of the embedding.

* Memory reached through a `char *` is a total map from offsets to bytes
  (`Buf`); a byte is a natural number below 256 (the bit pattern of the
  `char`).  A store keeps the low eight bits of what is stored.
* A `char` that is read and promoted to `int` goes through `charVal`.
* `uint64_t` arithmetic is arithmetic on `Nat` reduced modulo `2 ^ 64` where
  the C operation can overflow (`<<`); `/`, `>>` and `&` cannot.
* A loop whose trip count is not fixed by its header takes fuel and returns
  `none` when the fuel runs out; the theorems show that it does not.
* A `std::string` is the list of its chars, a `std::vector<std::string>` a
  list of such lists; `std::size_t` positions wrap modulo `2 ^ 64`.
* Functions of the C and C++ libraries (`isxdigit`, `strlen`, `strtol`,
  `memset`, `memcpy`, `find_first_of`, `find_first_not_of`, `substr`) are
  modelled after their standard descriptions.
-/

namespace EmbDebug
namespace Utils

/-! ## Machine-level helpers -/

/-- Memory behind a `char *`: the byte stored at each offset from the pointer. -/
abbrev Buf := Nat → Nat

/-- The store `buf[i] = v`: the low eight bits of `v` land at offset `i`. -/
def Buf.set (buf : Buf) (i v : Nat) : Buf :=
  fun j => if j = i then v % 256 else buf j

/-- A buffer holding the bytes of `l` from offset 0 on, and zero after them. -/
def Buf.ofList (l : List Nat) : Buf :=
  fun i => l.getD i 0

/-- The first `n` bytes of a buffer. -/
def Buf.take (buf : Buf) (n : Nat) : List Nat :=
  (List.range n).map buf

/-- Conversion of an `int` to `uint8_t`: reduction modulo 256. -/
def toUInt8 (x : Int) : Nat :=
  (x % 256).toNat

/-- The `int` a `char` holding bit pattern `b` promotes to (`char` signed, as on
the x86 hosts the server is built for). -/
def charVal (b : Nat) : Int :=
  if b % 256 < 128 then (b % 256 : Nat) else ((b % 256 : Nat) : Int) - 256

/-! ## `Utils::char2Hex` and `Utils::hex2Char` -/

/-- `Utils::char2Hex`: the argument is an `int`, the result a `uint8_t`.
`'a' = 97`, `'f' = 102`, `'0' = 48`, `'9' = 57`, `'A' = 65`, `'F' = 70`. -/
def char2Hex (c : Int) : Nat :=
  if 97 ≤ c ∧ c ≤ 102 then toUInt8 (c - 97 + 10)
  else if 48 ≤ c ∧ c ≤ 57 then toUInt8 (c - 48)
  else if 65 ≤ c ∧ c ≤ 70 then toUInt8 (c - 65 + 10)
  else toUInt8 (-1)

/-- The table `map` of `Utils::hex2Char`: the sixteen digits; the 240 entries
after them are NUL, which is the default of the lookup below. -/
def hexMap : List Nat :=
  "0123456789abcdef".toList.map Char.toNat

/-- `Utils::hex2Char`: the argument is a `uint8_t`. -/
def hex2Char (d : Nat) : Nat :=
  hexMap.getD (d % 256) 0

/-! ## Loop shapes of the source -/

/-- The value of `numBytes - 1` in `std::size_t` (64 bits): it wraps to
`2 ^ 64 - 1` when `numBytes` is 0. -/
def sizePred (numBytes : Nat) : Nat :=
  (numBytes % 2 ^ 64 + (2 ^ 64 - 1)) % 2 ^ 64

/-- The loop `for (std::size_t n = 0; n < numBytes; n++) body`, on a state the
body updates; the body changes neither `n` nor `numBytes`. -/
def forUp {σ : Type} (body : Nat → σ → σ) (numBytes : Nat) (s : σ) : σ :=
  (List.range numBytes).foldl (fun s n => body n s) s

/-- The loop `for (std::size_t n = start; n-- > 0;) body`: the test compares the
old `n` with 0 and then decrements, so the body sees `start - 1`, ..., `0`. -/
def forDown {σ : Type} (body : Nat → σ → σ) : Nat → σ → σ
  | 0, s => s
  | n + 1, s => forDown body n (body n s)

/-! ## `Utils::regVal2Hex` and `Utils::hex2RegVal` -/

/-- The body shared by both loops of `Utils::regVal2Hex`, on the state
`(val, buf)`. `byte` is an `unsigned char`. -/
def regVal2HexBody (n : Nat) (s : Nat × Buf) : Nat × Buf :=
  let byte := (s.1 &&& 0xff) % 256
  let buf := s.2.set (n * 2) (hex2Char ((byte >>> 4) &&& 0xf))
  let buf := buf.set (n * 2 + 1) (hex2Char (byte &&& 0xf))
  (s.1 / 256, buf)

/-- `Utils::regVal2Hex`: `val` is a `uint64_t`; the result is the buffer after
the call. -/
def regVal2Hex (val : Nat) (buf : Buf) (numBytes : Nat) (isLittleEndianP : Bool) : Buf :=
  let s :=
    if isLittleEndianP then forUp regVal2HexBody numBytes (val, buf)
    else forDown regVal2HexBody (sizePred numBytes) (val, buf)
  s.2.set (numBytes * 2) 0

/-- One `val = (val << 4) | char2Hex(ch)` on a `uint64_t`. -/
def shiftInDigit (val : Nat) (ch : Nat) : Nat :=
  ((val <<< 4) % 2 ^ 64) ||| char2Hex (charVal ch)

/-- The body shared by both loops of `Utils::hex2RegVal`. -/
def hex2RegValBody (buf : Buf) (n : Nat) (val : Nat) : Nat :=
  let val := shiftInDigit val (buf (n * 2))
  shiftInDigit val (buf (n * 2 + 1))

/-- `Utils::hex2RegVal`. -/
def hex2RegVal (buf : Buf) (numBytes : Nat) (isLittleEndianP : Bool) : Nat :=
  if isLittleEndianP then forDown (hex2RegValBody buf) (sizePred numBytes) 0
  else forUp (hex2RegValBody buf) numBytes 0

/-! ## `Utils::val2Hex` and `Utils::hex2Val` -/

/-- The `do { ... } while (val != 0)` loop of `Utils::val2Hex` on the state
`(val, buf, numChars)`; `none` when the fuel is used up before `val` is 0. -/
def val2HexLoop : Nat → Nat → Buf → Nat → Option (Buf × Nat)
  | 0, _, _, _ => none
  | fuel + 1, val, buf, numChars =>
    let buf := buf.set numChars (hex2Char (val &&& 0xf))
    let val := val >>> 4
    let numChars := numChars + 1
    if val ≠ 0 then val2HexLoop fuel val buf numChars else some (buf, numChars)

/-- The body of the reversing loop of `Utils::val2Hex`. -/
def val2HexSwap (numChars : Nat) (i : Nat) (buf : Buf) : Buf :=
  let tmp := buf (numChars - i - 1)
  let buf := buf.set (numChars - i - 1) (buf i)
  buf.set i tmp

/-- The function `strlen` from offset `i` on: the offset of the first NUL, looking at
no more than `fuel` bytes. -/
def strlenFrom (buf : Buf) : Nat → Nat → Option Nat
  | 0, _ => none
  | fuel + 1, i => if buf i = 0 then some i else strlenFrom buf fuel (i + 1)

/-- `Utils::val2Hex`: the returned length and the buffer after the call. A
`uint64_t` has sixteen nibbles, which is the fuel of the digit loop; the NUL
stored at `numChars` bounds the scan of `strlen`. -/
def val2Hex (val : Nat) (buf : Buf) : Option (Nat × Buf) :=
  match val2HexLoop 16 val buf 0 with
  | none => none
  | some (buf, numChars) =>
    let buf := forUp (val2HexSwap numChars) (numChars / 2) buf
    let buf := buf.set numChars 0
    match strlenFrom buf (numChars + 1) 0 with
    | none => none
    | some n => some (n, buf)

/-- `Utils::hex2Val`. -/
def hex2Val (buf : Buf) (len : Nat) : Nat :=
  forUp (fun i val => shiftInDigit val (buf i)) len 0

/-! ## `Utils::hex2Ascii` -/

/-- The loop of `Utils::hex2Ascii` from index `i` on, then the final
`dest[i] = 0`; `none` when the fuel is used up before a NUL is met in `src`.
The two buffers do not overlap. -/
def hex2AsciiLoop (src : Buf) : Nat → Nat → Buf → Option Buf
  | 0, _, _ => none
  | fuel + 1, i, dest =>
    if src (i * 2) ≠ 0 ∧ src (i * 2 + 1) ≠ 0 then
      let dest := dest.set i
        (((char2Hex (charVal (src (i * 2))) &&& 0xf) <<< 4)
          ||| (char2Hex (charVal (src (i * 2 + 1))) &&& 0xf))
      hex2AsciiLoop src fuel (i + 1) dest
    else some (dest.set i 0)

/-- The state of the loop of `Utils::rspUnescape`. -/
structure UnescapeState where
  buf : Buf
  fromOffset : Nat
  toOffset : Nat

/-- One pass through the body of the `while` loop of `Utils::rspUnescape`;
`'}' = 125`. -/
def rspUnescapeBody (s : UnescapeState) : UnescapeState :=
  if 125 = charVal (s.buf s.fromOffset) then
    let fromOffset := s.fromOffset + 1
    let x := (charVal (s.buf fromOffset)).xor 0x20
    { buf := s.buf.set s.toOffset (toUInt8 x), fromOffset := fromOffset + 1,
      toOffset := s.toOffset + 1 }
  else
    { buf := s.buf.set s.toOffset (s.buf s.fromOffset), fromOffset := s.fromOffset + 1,
      toOffset := s.toOffset + 1 }

/-- The `while (fromOffset < len)` loop of `Utils::rspUnescape`; `none` when the
fuel is used up while `fromOffset < len` still holds. -/
def rspUnescapeLoop (len : Nat) : Nat → UnescapeState → Option UnescapeState
  | 0, s => if s.fromOffset < len then none else some s
  | fuel + 1, s =>
    if s.fromOffset < len then rspUnescapeLoop len fuel (rspUnescapeBody s) else some s

/-- `Utils::rspUnescape`: the returned length and the buffer after the call.
Every pass advances `fromOffset`, so `len` passes are enough. -/
def rspUnescape (buf : Buf) (len : Nat) : Option (Nat × Buf) :=
  (rspUnescapeLoop len len { buf := buf, fromOffset := 0, toOffset := 0 }).map
    fun s => (s.toOffset, s.buf)

/-! ## Specification vocabulary -/

/-- An ASCII hexadecimal digit, as a character code. -/
def IsHexDigit (c : Int) : Prop :=
  (48 ≤ c ∧ c ≤ 57) ∨ (97 ≤ c ∧ c ≤ 102) ∨ (65 ≤ c ∧ c ≤ 70)

instance (c : Int) : Decidable (IsHexDigit c) := by
  unfold IsHexDigit; infer_instance

/-- The value of a hexadecimal digit character, letters in either case. -/
def hexDigitValue (c : Int) : Int :=
  if 48 ≤ c ∧ c ≤ 57 then c - 48
  else if 97 ≤ c ∧ c ≤ 102 then c - 97 + 10
  else c - 65 + 10

/-- The value of the hexadecimal digit stored in byte `b`. -/
def digitOf (b : Nat) : Nat :=
  (hexDigitValue (charVal b)).toNat

/-- The big-endian value of the first `len` characters of `buf` read as
hexadecimal digits: `∑ i < len, digit i * 16 ^ (len - 1 - i)`. -/
def bigEndianValue (buf : Buf) (len : Nat) : Nat :=
  ∑ i in Finset.range len, digitOf (buf i) * 16 ^ (len - 1 - i)

/-- RSP escaping as the specification words it: each `#` (35), `$` (36) and
`}` (125) becomes `}` followed by that byte XOR `0x20`; every other byte
stays. The source has the decoder only. -/
def escape : List Nat → List Nat
  | [] => []
  | c :: cs =>
    if c = 35 ∨ c = 36 ∨ c = 125 then 125 :: (c ^^^ 0x20) :: escape cs else c :: escape cs

/-- The C library's `isxdigit` (the same in every locale): nonzero exactly on
the codes of `0-9` (48..57), `A-F` (65..70) and `a-f` (97..102). -/
def isxdigit (c : Int) : Bool :=
  (48 ≤ c && c ≤ 57) || (65 ≤ c && c ≤ 70) || (97 ≤ c && c ≤ 102)

/-- The loop of `Utils::isHexStr` with `k` passes left, at index `i`: it
returns `false` at the first character that is no hexadecimal digit. -/
def isHexStrLoop (buf : Buf) : Nat → Nat → Bool
  | 0, _ => true
  | k + 1, i => if !isxdigit (charVal (buf i)) then false else isHexStrLoop buf k (i + 1)

/-- `Utils::isHexStr`. -/
def isHexStr (buf : Buf) (len : Nat) : Bool :=
  if len < 1 then false else isHexStrLoop buf len 0

/-! ## `Utils::ascii2Hex` -/

/-- The left-to-right decoding of RSP escapes: each pair `}` (125) `x` becomes
`x XOR 0x20`, every other byte stays. -/
def unescaped : List Nat → List Nat
  | [] => []
  | [c] => [c]
  | c :: x :: rest =>
    if c = 125 then (x ^^^ 0x20) :: unescaped rest else c :: unescaped (x :: rest)

/-- The number of escape sequences met in a left-to-right scan. -/
def escapeCount : List Nat → Nat
  | [] => 0
  | [_] => 0
  | c :: x :: rest => if c = 125 then escapeCount rest + 1 else escapeCount (x :: rest)

/-- Every `}` that starts an escape sequence is followed by a byte of the
sequence: the scan does not end on a lone `}`. -/
def EscapesComplete : List Nat → Prop
  | [] => True
  | [c] => c ≠ 125
  | c :: x :: rest => if c = 125 then EscapesComplete rest else EscapesComplete (x :: rest)

end Utils

/-! ## `RspPacket` and `RspPacketBuilder` (`RspPacket.h`)

The static `RspPacket::bufSize` is a parameter `bufSize` of every operation
that reads it: its value at the time of the call. -/

/-- `::memset(data, 0, n)`: the first `n` bytes behind the pointer become zero. -/
def memsetZero (data : Utils.Buf) (n : Nat) : Utils.Buf :=
  fun i => if i < n then 0 else data i

/-- `::memcpy(data, X, n)` on two regions that do not overlap. -/
def memcpy (data X : Utils.Buf) (n : Nat) : Utils.Buf :=
  fun i => if i < n then X i else data i

/-- An `RspPacket`: the memory behind its pointer `data` and its `len`.
`capacity` is not a member of the class: it records how many chars the
`new char[bufSize]` of the constructor allocated, so that the storage of the
packet is the offsets below `capacity` and what lies behind belongs to other
objects. -/
structure RspPacket where
  data : Utils.Buf
  capacity : Nat
  len : Nat

/-- `RspPacket::RspPacket(const char *X, std::size_t _len)`; `fresh` is the
memory that `new char[bufSize]` returns. -/
def RspPacket.fromBuffer (bufSize : Nat) (fresh X : Utils.Buf) (len : Nat) : RspPacket :=
  let data := memsetZero fresh bufSize
  { data := memcpy data X len, capacity := bufSize, len := len }

/-- `RspPacket::RspPacket(const char *X)`; `none` when `strlen` finds no NUL
within `fuel` chars of `X`. -/
def RspPacket.fromString (bufSize : Nat) (fresh X : Utils.Buf) (fuel : Nat) : Option RspPacket :=
  let data := memsetZero fresh bufSize
  (Utils.strlenFrom X fuel 0).map fun len =>
    { data := memcpy data X len, capacity := bufSize, len := len }

/-- `RspPacket::getLen`. -/
def RspPacket.getLen (p : RspPacket) : Nat :=
  p.len

/-- An `RspPacketBuilder`: the memory behind `data` and `len`. `capacity` is
not a member of the class: it records how many chars the constructor (which
`RspPacket.h` only declares) allocated, the capacity in effect at that time. -/
structure RspPacketBuilder where
  data : Utils.Buf
  capacity : Nat
  len : Nat

/-- `RspPacketBuilder::getSize`. -/
def RspPacketBuilder.getSize (b : RspPacketBuilder) : Nat :=
  b.len

/-- `RspPacketBuilder::erase`, with `RspPacket::getMaxPacketSize()` returning
`bufSize`. -/
def RspPacketBuilder.erase (bufSize : Nat) (b : RspPacketBuilder) : RspPacketBuilder :=
  { b with data := memsetZero b.data bufSize, len := 0 }

namespace Utils

/-! ## `Utils::split`

A `std::string` is the list of its chars; positions and `npos` are
`std::size_t` values (64 bits). -/

/-- `std::string::npos`, the largest `std::size_t`. -/
def npos : Nat :=
  2 ^ 64 - 1

/-- The scan behind `find_first_of` and `find_first_not_of`: the position of the
first char of `l` that satisfies `p`, where `l` starts at position `i`, and
`npos` when there is none. -/
def firstAt (p : Char → Bool) : List Char → Nat → Nat
  | [], _ => npos
  | c :: cs, i => if p c then i else firstAt p cs (i + 1)

/-- `s.find_first_of(delim, pos)`. -/
def find_first_of (s delim : List Char) (pos : Nat) : Nat :=
  firstAt (fun c => decide (c ∈ delim)) (s.drop pos) pos

/-- `s.find_first_not_of(delim, pos)`. -/
def find_first_not_of (s delim : List Char) (pos : Nat) : Nat :=
  firstAt (fun c => !decide (c ∈ delim)) (s.drop pos) pos

/-- `s.substr(pos, count)` for `pos ≤ s.size()`: at most `count` chars from
position `pos` on. -/
def substr (s : List Char) (pos count : Nat) : List Char :=
  (s.drop pos).take count

/-- The `do { ... } while (next != s.npos)` loop of `Utils::split` on the state
`(next, elems)`; `next + 1` and `next - current` are `std::size_t` arithmetic.
`none` when the fuel is used up. -/
def splitLoop (s delim : List Char) : Nat → Nat → List (List Char) → Option (List (List Char))
  | 0, _, _ => none
  | fuel + 1, next, elems =>
    let next := find_first_not_of s delim ((next + 1) % 2 ^ 64)
    if next = npos then some elems
    else
      let current := next
      let next := find_first_of s delim current
      let elems := elems ++ [substr s current ((next + 2 ^ 64 - current) % 2 ^ 64)]
      if next ≠ npos then splitLoop s delim fuel next elems else some elems

/-- `Utils::split`: the vector `elems` after the call. `elems.clear()` drops
what it held. Every pass but the last moves `next` to a later delimiter, so
`s.size() + 1` passes are enough. -/
def split (s delim : List Char) (elems : List (List Char)) : Option (List (List Char)) :=
  let elems := elems.take 0
  splitLoop s delim (s.length + 1) npos elems

/-- The maximal non-empty runs of chars of `s` that are not in `delim`, in
order: `s` cut at every delimiter char, empty pieces dropped. -/
def tokenRuns (s delim : List Char) : List (List Char) :=
  (s.splitOnP (fun c => decide (c ∈ delim))).filter (fun t => !t.isEmpty)

/-- The pieces `splitOnP` still has to produce, empty ones dropped, with `acc`
the chars of the piece under way, last char first. -/
def runsFrom (delim : List Char) (l acc : List Char) : List (List Char) :=
  (List.splitOnP.go (fun c => decide (c ∈ delim)) l acc).filter (fun t => !t.isEmpty)

/-! ## `Utils::str2int`

`strtol` is the C library's; it is modelled after the C standard in the "C"
locale, with a 64-bit `long` and a 32-bit `int`. A C string is the list of its
chars before the terminating NUL. -/

/-- `INT_MAX`. -/
def INT_MAX : Int := 2 ^ 31 - 1

/-- `INT_MIN`. -/
def INT_MIN : Int := -2 ^ 31

/-- `LONG_MAX`. -/
def LONG_MAX : Int := 2 ^ 63 - 1

/-- `LONG_MIN`. -/
def LONG_MIN : Int := -2 ^ 63

/-- The C library's `isspace` in the "C" locale: space and the codes 9..13. -/
def isspace (c : Char) : Bool :=
  c.toNat = 32 || (9 ≤ c.toNat && c.toNat ≤ 13)

/-- The value `strtol` gives a char as a digit: `0-9` are 0..9, the letters
`a-z` and `A-Z` are 10..35. -/
def digitVal (c : Char) : Option Nat :=
  if 48 ≤ c.toNat ∧ c.toNat ≤ 57 then some (c.toNat - 48)
  else if 97 ≤ c.toNat ∧ c.toNat ≤ 122 then some (c.toNat - 87)
  else if 65 ≤ c.toNat ∧ c.toNat ≤ 90 then some (c.toNat - 55)
  else none

/-- A char that is a digit of the given base. -/
def isDigitIn (base : Nat) (c : Char) : Bool :=
  match digitVal c with
  | some d => decide (d < base)
  | none => false

/-- The value of a run of digits in the given base, first digit most
significant. -/
def digitsValue (base : Nat) (ds : List Char) : Nat :=
  ds.foldl (fun acc c => acc * base + (digitVal c).getD 0) 0

/-- Whether `strtol` takes a `0x` or `0X` at the head of `body` as the mark of
base 16: the base is 0 or 16 and a hexadecimal digit follows the mark. -/
def hasHexMark (body : List Char) (base : Nat) : Bool :=
  match body with
  | z :: x :: d :: _ =>
    decide (base = 0 ∨ base = 16) && decide (z = '0') && decide (x = 'x' ∨ x = 'X')
      && isDigitIn 16 d
  | _ => false

/-- The base `strtol` reads the digits of `body` in: the given one, or for
base 0 the one the head of `body` selects, 16 after `0x`, 8 after a leading
`0`, 10 otherwise. -/
def scanRadix (body : List Char) (base : Nat) : Nat :=
  if base = 0 then
    (if hasHexMark body base then 16 else if body.head? = some '0' then 8 else 10)
  else base

/-- The part of the subject sequence of `strtol` behind the sign, for a base
that is 0 or within 2..36: the mark of base 16 if there is one, then the
longest run of digits of the base. The result is the value of the digits and
the number of chars taken, or `none` when there is no digit. -/
def scanUnsigned (body : List Char) (base : Nat) : Option (Nat × Nat) :=
  let markLen := if hasHexMark body base then 2 else 0
  let digits := (body.drop markLen).takeWhile (isDigitIn (scanRadix body base))
  if digits = [] then none
  else some (digitsValue (scanRadix body base) digits, markLen + digits.length)

/-- The subject sequence of `strtol` in `s`: white space, an optional sign, and
what `scanUnsigned` takes. The result is the exact value and the position
behind the last digit, or `none` when there is no digit. -/
def scanInteger (s : List Char) (base : Nat) : Option (Int × Nat) :=
  let ws := s.takeWhile isspace
  let rest := s.drop ws.length
  let signLen := if rest.head? = some '-' ∨ rest.head? = some '+' then 1 else 0
  match scanUnsigned (rest.drop signLen) base with
  | none => none
  | some (magnitude, taken) =>
    some (if rest.head? = some '-' then -(magnitude : Int) else (magnitude : Int),
      ws.length + signLen + taken)

/-- What a call `val = strtol(s, &end, base)` leaves: the value returned, the
offset of `end` from `s`, and whether `errno` is `ERANGE`. -/
structure StrtolResult where
  val : Int
  endPos : Nat
  erange : Bool

/-- The C library's `strtol` on the C string `s`. With no digit to convert it
returns 0 and stores `s` in `end`; a value outside `long` is replaced by
`LONG_MAX` or `LONG_MIN` with `errno = ERANGE`. The C standard defines it for
base 0 and 2..36 only: `none` for any other base. -/
def strtol (s : List Char) (base : Int) : Option StrtolResult :=
  if base = 0 ∨ (2 ≤ base ∧ base ≤ 36) then
    match scanInteger s base.toNat with
    | none => some { val := 0, endPos := 0, erange := false }
    | some (v, e) =>
      if v > LONG_MAX then some { val := LONG_MAX, endPos := e, erange := true }
      else if v < LONG_MIN then some { val := LONG_MIN, endPos := e, erange := true }
      else some { val := v, endPos := e, erange := false }
  else none

/-- The C string `str.c_str()` shows: the chars of `str` before its first NUL. -/
def c_str (str : List Char) : List Char :=
  str.takeWhile (fun c => c.toNat ≠ 0)

/-- `Utils::str2int`: the returned `bool` and the value of `i` after the call,
`i` being the value before; `none` for a base `strtol` is not defined for. -/
def str2int (i : Int) (str : List Char) (base : Int) : Option (Bool × Int) :=
  let s := c_str str
  match strtol s base with
  | none => none
  | some r =>
    if (r.erange ∧ r.val = LONG_MAX) ∨ r.val > INT_MAX then some (false, i)
    else if (r.erange ∧ r.val = LONG_MIN) ∨ r.val < INT_MIN then some (false, i)
    else if s = [] ∨ r.endPos < s.length then some (false, i)
    else some (true, r.val)

/-- A complete C integer literal and its value: `0x` or `0X` and at least one
hexadecimal digit, read in base 16; a `0` and octal digits, read in base 8; a
digit `1-9` and decimal digits, read in base 10. The value is that of the
digits, least significant last. -/
inductive IntegerLiteral : List Char → Nat → Prop
  | hex (x : Char) (ds : List Char) (hx : x = 'x' ∨ x = 'X') (hne : ds ≠ [])
      (hds : ∀ c, c ∈ ds → isDigitIn 16 c = true) :
      IntegerLiteral ('0' :: x :: ds)
        (Nat.ofDigits 16 ((ds.map fun c => (digitVal c).getD 0).reverse))
  | oct (ds : List Char) (hds : ∀ c, c ∈ ds → isDigitIn 8 c = true) :
      IntegerLiteral ('0' :: ds)
        (Nat.ofDigits 8 ((ds.map fun c => (digitVal c).getD 0).reverse))
  | dec (d : Char) (ds : List Char) (hd : 49 ≤ d.toNat ∧ d.toNat ≤ 57)
      (hds : ∀ c, c ∈ ds → isDigitIn 10 c = true) :
      IntegerLiteral (d :: ds)
        (Nat.ofDigits 10 (((d :: ds).map fun c => (digitVal c).getD 0).reverse))

/-- An integer literal with an optional sign, and its value. -/
inductive SignedLiteral : List Char → Int → Prop
  | plain (l : List Char) (n : Nat) (h : IntegerLiteral l n) : SignedLiteral l n
  | plus (l : List Char) (n : Nat) (h : IntegerLiteral l n) : SignedLiteral ('+' :: l) n
  | minus (l : List Char) (n : Nat) (h : IntegerLiteral l n) : SignedLiteral ('-' :: l) (-(n : Int))

/-! ## Basic facts -/

theorem toUInt8_of_range (x : Int) (h0 : 0 ≤ x) (h1 : x < 256) : (toUInt8 x : Int) = x := by
  unfold toUInt8
  omega

theorem char2Hex_of_not_digit (c : Int) (h : ¬ IsHexDigit c) : char2Hex c = 255 := by
  unfold IsHexDigit at h
  unfold char2Hex
  rw [if_neg (by omega), if_neg (by omega), if_neg (by omega)]
  rfl

theorem char2Hex_of_digit (c : Int) (h : IsHexDigit c) :
    (char2Hex c : Int) = hexDigitValue c := by
  unfold IsHexDigit at h
  unfold char2Hex hexDigitValue
  split_ifs <;> first | (apply toUInt8_of_range <;> omega) | omega

theorem hexDigitValue_range (c : Int) (h : IsHexDigit c) :
    0 ≤ hexDigitValue c ∧ hexDigitValue c ≤ 15 := by
  unfold IsHexDigit at h
  unfold hexDigitValue
  split_ifs <;> omega

/-! ## C7 -/

/-- C7: for every `int` argument `c`, `char2Hex c` is the digit value (0..15,
letters case-insensitively 10..15) when `c` is one of `0-9`, `a-f`, `A-F`, and
for every other `c` it is the invalid-digit result 255 (the `-1` of the source
in a `uint8_t`), which is not a value in 0..15. -/
theorem char2Hex_value_or_invalid (c : Int) :
    (48 ≤ c ∧ c ≤ 57 → (char2Hex c : Int) = c - 48) ∧
    (97 ≤ c ∧ c ≤ 102 → (char2Hex c : Int) = c - 97 + 10) ∧
    (65 ≤ c ∧ c ≤ 70 → (char2Hex c : Int) = c - 65 + 10) ∧
    (IsHexDigit c → char2Hex c ≤ 15) ∧
    (¬ IsHexDigit c → char2Hex c = 255 ∧ ¬ char2Hex c ≤ 15) := by
  refine ⟨?_, ?_, ?_, ?_, ?_⟩
  · intro h
    rw [char2Hex_of_digit c (Or.inl h)]
    unfold hexDigitValue
    rw [if_pos h]
  · intro h
    rw [char2Hex_of_digit c (Or.inr (Or.inl h))]
    unfold hexDigitValue
    rw [if_neg (by omega), if_pos h]
  · intro h
    rw [char2Hex_of_digit c (Or.inr (Or.inr h))]
    unfold hexDigitValue
    rw [if_neg (by omega), if_neg (by omega)]
  · intro h
    have h1 := char2Hex_of_digit c h
    have h2 := hexDigitValue_range c h
    omega
  · intro h
    rw [char2Hex_of_not_digit c h]
    exact ⟨rfl, by decide⟩

/-- C7 at concrete characters: `'7'`, `'c'`, `'C'` are digits 7, 12, 12, and
`'g'`, `'z'`, NUL and EOF (`-1`) all give 255. -/
theorem char2Hex_value_or_invalid_witness :
    char2Hex 55 = 7 ∧ char2Hex 99 = 12 ∧ char2Hex 67 = 12 ∧
    char2Hex 103 = 255 ∧ char2Hex 122 = 255 ∧ char2Hex 0 = 255 ∧ char2Hex (-1) = 255 ∧
    (¬ IsHexDigit 122 → char2Hex 122 = 255 ∧ ¬ char2Hex 122 ≤ 15) :=
  ⟨by decide, by decide, by decide, by decide, by decide, by decide, by decide,
    (char2Hex_value_or_invalid 122).2.2.2.2⟩

/-! ## Loops -/

theorem forUp_zero {σ : Type} (body : Nat → σ → σ) (s : σ) : forUp body 0 s = s := rfl

theorem forUp_succ {σ : Type} (body : Nat → σ → σ) (n : Nat) (s : σ) :
    forUp body (n + 1) s = body n (forUp body n s) := by
  simp [forUp, List.range_succ, List.foldl_append]

theorem forUp_add {σ : Type} (body : Nat → σ → σ) (m n : Nat) (s : σ) :
    forUp body (m + n) s = forUp (fun i => body (m + i)) n (forUp body m s) := by
  induction n with
  | zero => rfl
  | succ n ih => rw [← Nat.add_assoc, forUp_succ, forUp_succ, ih]

/-! ## Digits -/

theorem char2Hex_digitOf (b : Nat) (h : IsHexDigit (charVal b)) :
    char2Hex (charVal b) = digitOf b ∧ digitOf b < 16 := by
  have h1 := char2Hex_of_digit _ h
  have h2 := hexDigitValue_range _ h
  unfold digitOf
  omega

theorem shl4_mod (val : Nat) : (val <<< 4) % 2 ^ 64 = 2 ^ 4 * (val % 2 ^ 60) := by
  rw [Nat.shiftLeft_eq, Nat.mul_comm val, show (2:Nat) ^ 64 = 2 ^ 4 * 2 ^ 60 by norm_num,
    Nat.mul_mod_mul_left]

theorem shiftInDigit_of_lt (val ch : Nat) (h : char2Hex (charVal ch) < 16) :
    shiftInDigit val ch = (val * 16 + char2Hex (charVal ch)) % 2 ^ 64 := by
  unfold shiftInDigit
  rw [shl4_mod, ← Nat.mul_add_lt_is_or (by simpa using h)]
  omega

theorem shiftInDigit_of_digit (val ch : Nat) (h : IsHexDigit (charVal ch)) :
    shiftInDigit val ch = (val * 16 + digitOf ch) % 2 ^ 64 := by
  have h1 := char2Hex_digitOf ch h
  rw [shiftInDigit_of_lt val ch (by omega), h1.1]

/-! ## `hex2Val` on digit strings -/

theorem bigEndianValue_succ (buf : Buf) (len : Nat) :
    bigEndianValue buf (len + 1) = bigEndianValue buf len * 16 + digitOf (buf len) := by
  unfold bigEndianValue
  rw [Finset.sum_range_succ, Finset.sum_mul]
  congr 1
  · apply Finset.sum_congr rfl
    intro i hi
    have hi := Finset.mem_range.mp hi
    rw [show len + 1 - 1 - i = (len - 1 - i) + 1 by omega, pow_succ, Nat.mul_assoc]
  · simp

theorem bigEndianValue_lt (buf : Buf) (len : Nat)
    (h : ∀ i, i < len → IsHexDigit (charVal (buf i))) : bigEndianValue buf len < 16 ^ len := by
  induction len with
  | zero => simp [bigEndianValue]
  | succ n ih =>
    have h1 := ih (fun i hi => h i (by omega))
    have h2 := (char2Hex_digitOf (buf n) (h n (by omega))).2
    rw [bigEndianValue_succ, pow_succ]
    omega

theorem mod_shift_digit (x d : Nat) :
    (x % 2 ^ 64 * 16 + d) % 2 ^ 64 = (x * 16 + d) % 2 ^ 64 := by
  omega

/-- The digit loop of `hex2Val` started from an accumulator `a`. -/
theorem hexFold_digits (buf : Buf) (a len : Nat)
    (h : ∀ i, i < len → IsHexDigit (charVal (buf i))) :
    forUp (fun i val => shiftInDigit val (buf i)) len a % 2 ^ 64
      = (a * 16 ^ len + bigEndianValue buf len) % 2 ^ 64
    ∧ (0 < len → forUp (fun i val => shiftInDigit val (buf i)) len a < 2 ^ 64) := by
  induction len with
  | zero => simp [forUp_zero, bigEndianValue]
  | succ n ih =>
    have h1 := (ih (fun i hi => h i (by omega))).1
    have e : forUp (fun i val => shiftInDigit val (buf i)) (n + 1) a
        = (a * 16 ^ (n + 1) + bigEndianValue buf (n + 1)) % 2 ^ 64 := by
      rw [forUp_succ, shiftInDigit_of_digit _ _ (h n (by omega)), bigEndianValue_succ,
        ← mod_shift_digit, h1, mod_shift_digit]
      congr 1
      ring
    refine ⟨?_, fun _ => ?_⟩
    · rw [e, Nat.mod_mod]
    · rw [e]
      exact Nat.mod_lt _ (by norm_num)

theorem hex2Val_add (buf : Buf) (m n : Nat) :
    hex2Val buf (m + n) = forUp (fun i val => shiftInDigit val (buf (m + i))) n (hex2Val buf m) :=
  forUp_add (fun i val => shiftInDigit val (buf i)) m n 0

theorem hex2Val_lt (buf : Buf) (len : Nat)
    (h : ∀ i, i < len → IsHexDigit (charVal (buf i))) : hex2Val buf len < 2 ^ 64 := by
  rcases Nat.eq_zero_or_pos len with h0 | h0
  · subst h0
    show (0 : Nat) < 2 ^ 64
    norm_num
  · exact (hexFold_digits buf 0 len h).2 h0

theorem hex2Val_eq_mod (buf : Buf) (len : Nat)
    (h : ∀ i, i < len → IsHexDigit (charVal (buf i))) :
    hex2Val buf len = bigEndianValue buf len % 2 ^ 64 := by
  have h1 := (hexFold_digits buf 0 len h).1
  have h2 := hex2Val_lt buf len h
  unfold hex2Val at h2 ⊢
  rw [Nat.mod_eq_of_lt h2] at h1
  simpa using h1

/-! ## C9 -/

/-- C9: for every `len` and every buffer whose first `len` characters are
hexadecimal digits, `hex2Val buf len` is the big-endian value of those digits
modulo `2 ^ 64`; for `len ≤ 16` it is that value itself, and for `len > 16`
it is what `hex2Val` gives on the last sixteen digits alone. -/
theorem hex2Val_bigEndian_mod (buf : Buf) (len : Nat)
    (h : ∀ i, i < len → IsHexDigit (charVal (buf i))) :
    hex2Val buf len = (∑ i in Finset.range len, digitOf (buf i) * 16 ^ (len - 1 - i)) % 2 ^ 64
    ∧ (len ≤ 16 →
        hex2Val buf len = ∑ i in Finset.range len, digitOf (buf i) * 16 ^ (len - 1 - i))
    ∧ (16 < len →
        hex2Val buf len = hex2Val (fun i => buf (len - 16 + i)) 16
        ∧ hex2Val buf len
            = ∑ i in Finset.range 16, digitOf (buf (len - 16 + i)) * 16 ^ (15 - i)) := by
  have hmod := hex2Val_eq_mod buf len h
  refine ⟨hmod, ?_, ?_⟩
  · intro hl
    have h1 := bigEndianValue_lt buf len h
    have h2 : 16 ^ len ≤ 16 ^ 16 := Nat.pow_le_pow_right (by norm_num) hl
    rw [hmod]
    exact Nat.mod_eq_of_lt (by omega)
  · intro hl
    obtain ⟨m, rfl⟩ : ∃ m, len = m + 16 := ⟨len - 16, by omega⟩
    rw [Nat.add_sub_cancel]
    have hd : ∀ i, i < 16 → IsHexDigit (charVal ((fun i => buf (m + i)) i)) :=
      fun i hi => h _ (by omega)
    have h1 := bigEndianValue_lt _ 16 hd
    have key : hex2Val buf (m + 16) = bigEndianValue (fun i => buf (m + i)) 16 := by
      have h2 := hexFold_digits (fun i => buf (m + i)) (hex2Val buf m) 16 hd
      have h3 := hex2Val_lt buf (m + 16) h
      rw [hex2Val_add] at h3 ⊢
      have h4 := h2.1
      rw [Nat.mod_eq_of_lt h3] at h4
      rw [h4]
      omega
    refine ⟨?_, ?_⟩
    · rw [key, hex2Val_eq_mod _ 16 hd]
      exact (Nat.mod_eq_of_lt (by omega)).symm
    · rw [key]
      rfl


/-- C9 at `"1a2"` and at seventeen digits `"1"` followed by sixteen `"0"`: the
values `0x1a2` and, the leading digit being shifted out of 64 bits, 0. -/
theorem hex2Val_bigEndian_mod_witness :
    hex2Val (Buf.ofList [49, 97, 50]) 3 = 0x1a2
    ∧ hex2Val (Buf.ofList [49, 48, 48, 48, 48, 48, 48, 48, 48, 48, 48, 48, 48, 48, 48, 48, 48]) 17
        = 0
    ∧ (hex2Val (Buf.ofList [49, 97, 50]) 3
        = (∑ i in Finset.range 3, digitOf (Buf.ofList [49, 97, 50] i) * 16 ^ (3 - 1 - i)) % 2 ^ 64) :=
  ⟨by decide, by decide,
    (hex2Val_bigEndian_mod (Buf.ofList [49, 97, 50]) 3 (by decide)).1⟩

/-! ## `hex2Char` -/

theorem hex2Char_of_lt (d : Nat) (h : d < 16) :
    hex2Char d ∈ hexMap ∧ hex2Char d ≠ 0 ∧ hex2Char d < 256 ∧
      IsHexDigit (charVal (hex2Char d)) ∧ digitOf (hex2Char d) = d ∧
      (hex2Char d = 48 ↔ d = 0) := by
  interval_cases d <;> decide

theorem hex2Char_lt (d : Nat) : hex2Char d < 256 := by
  by_cases h : d % 256 < 16
  · have h1 := (hex2Char_of_lt (d % 256) h).2.2.1
    unfold hex2Char at h1 ⊢
    rwa [Nat.mod_mod] at h1
  · unfold hex2Char
    rw [List.getD_eq_default _ _ (by simp [hexMap]; omega)]
    norm_num

theorem and_0xf (v : Nat) : v &&& 0xf = v % 16 :=
  Nat.and_pow_two_sub_one_eq_mod v 4

theorem and_0xff (v : Nat) : v &&& 0xff = v % 256 :=
  Nat.and_pow_two_sub_one_eq_mod v 8

theorem shr4 (v : Nat) : v >>> 4 = v / 16 :=
  Nat.shiftRight_eq_div_pow v 4

theorem Buf.set_same (buf : Buf) (i v : Nat) : buf.set i v i = v % 256 := by
  simp [Buf.set]

theorem Buf.set_other (buf : Buf) (i v j : Nat) (h : j ≠ i) : buf.set i v j = buf j := by
  simp [Buf.set, h]

/-! ## `val2Hex` -/

theorem val2HexLoop_spec (fuel : Nat) : ∀ (v : Nat) (buf : Buf) (k : Nat),
    0 < fuel → v < 16 ^ fuel →
    ∃ n buf1, val2HexLoop fuel v buf k = some (buf1, k + n) ∧ 1 ≤ n ∧ n ≤ fuel ∧
      v < 16 ^ n ∧ (v ≠ 0 → 16 ^ (n - 1) ≤ v) ∧ (v = 0 → n = 1) ∧
      (∀ i, i < n → buf1 (k + i) = hex2Char (v / 16 ^ i % 16)) ∧
      (∀ j, j < k ∨ k + n ≤ j → buf1 j = buf j) := by
  induction fuel with
  | zero => intro v buf k h; omega
  | succ fuel ih =>
    intro v buf k _ hv
    unfold val2HexLoop
    simp only [and_0xf, shr4]
    by_cases h0 : v / 16 = 0
    · rw [if_neg (by simpa using h0)]
      refine ⟨1, _, rfl, le_refl _, by omega, by omega, fun _ => by simp; omega, fun _ => rfl,
        ?_, ?_⟩
      · intro i hi
        obtain rfl : i = 0 := by omega
        rw [Nat.add_zero, Buf.set_same, Nat.mod_eq_of_lt (hex2Char_lt _)]
        simp
      · intro j hj
        exact Buf.set_other _ _ _ _ (by omega)
    · rw [if_pos h0]
      have hf : 0 < fuel := by
        rcases Nat.eq_zero_or_pos fuel with e | e
        · subst e; omega
        · exact e
      have hv1 : v / 16 < 16 ^ fuel := by
        rw [pow_succ] at hv
        omega
      obtain ⟨n, buf1, h1, h2, h3, h4, h5, _, h6, h7⟩ :=
        ih (v / 16) (buf.set k (hex2Char (v % 16))) (k + 1) hf hv1
      refine ⟨n + 1, buf1, ?_, by omega, by omega, ?_, ?_, fun e => by omega, ?_, ?_⟩
      · rw [h1]; congr 2; omega
      · rw [pow_succ]; omega
      · intro _
        have := h5 h0
        rw [Nat.add_sub_cancel]
        obtain ⟨m, rfl⟩ : ∃ m, n = m + 1 := ⟨n - 1, by omega⟩
        rw [Nat.add_sub_cancel] at this
        rw [pow_succ]
        omega
      · intro i hi
        rcases Nat.eq_zero_or_pos i with e | e
        · subst e
          rw [Nat.add_zero, h7 k (by omega), Buf.set_same, Nat.mod_eq_of_lt (hex2Char_lt _)]
          simp
        · obtain ⟨m, rfl⟩ : ∃ m, i = m + 1 := ⟨i - 1, by omega⟩
          have := h6 m (by omega)
          rw [show k + (m + 1) = k + 1 + m by omega, this, pow_succ, Nat.div_div_eq_div_mul,
            Nat.mul_comm]
      · intro j hj
        rw [h7 j (by omega)]
        exact Buf.set_other _ _ _ _ (by omega)

theorem val2HexSwap_apply (n i : Nat) (buf : Buf) :
    val2HexSwap n i buf = (buf.set (n - i - 1) (buf i)).set i (buf (n - i - 1)) := rfl

theorem val2HexSwap_spec (n : Nat) (buf : Buf) (hb : ∀ i, i < n → buf i < 256) (m : Nat) :
    m ≤ n / 2 → ∀ i,
      forUp (val2HexSwap n) m buf i
        = if i < m ∨ (n - m ≤ i ∧ i < n) then buf (n - 1 - i) else buf i := by
  induction m with
  | zero =>
    intro _ i
    rw [forUp_zero, if_neg (by omega)]
  | succ m ih =>
    intro hm i
    have ih := ih (by omega)
    rw [forUp_succ, val2HexSwap_apply]
    by_cases h1 : i = m
    · subst h1
      rw [Buf.set_same, ih, if_neg (by omega), if_pos (by omega),
        show n - i - 1 = n - 1 - i by omega, Nat.mod_eq_of_lt (hb _ (by omega))]
    · rw [Buf.set_other _ _ _ _ h1]
      by_cases h2 : i = n - m - 1
      · subst h2
        rw [Buf.set_same, ih, if_neg (by omega), if_pos (by omega),
          show n - 1 - (n - m - 1) = m by omega, Nat.mod_eq_of_lt (hb m (by omega))]
      · rw [Buf.set_other _ _ _ _ h2, ih]
        by_cases h3 : i < m ∨ (n - m ≤ i ∧ i < n)
        · rw [if_pos h3, if_pos (by omega)]
        · rw [if_neg h3, if_neg (by omega)]

theorem val2HexSwap_reverse (n : Nat) (buf : Buf) (hb : ∀ i, i < n → buf i < 256) (i : Nat) :
    forUp (val2HexSwap n) (n / 2) buf i = if i < n then buf (n - 1 - i) else buf i := by
  rw [val2HexSwap_spec n buf hb (n / 2) (le_refl _) i]
  by_cases h : i < n
  · rw [if_pos h]
    by_cases h1 : i < n / 2 ∨ (n - n / 2 ≤ i ∧ i < n)
    · rw [if_pos h1]
    · rw [if_neg h1]
      congr 1
      omega
  · rw [if_neg h, if_neg (by omega)]

theorem strlenFrom_spec (buf : Buf) (n : Nat) (h0 : buf n = 0) :
    ∀ (fuel i : Nat), i ≤ n → i + fuel = n + 1 → (∀ j, i ≤ j → j < n → buf j ≠ 0) →
      strlenFrom buf fuel i = some n := by
  intro fuel
  induction fuel with
  | zero => intro i h1 h2; omega
  | succ fuel ih =>
    intro i hle hi hj
    unfold strlenFrom
    by_cases e : i = n
    · subst e
      rw [if_pos h0]
    · rw [if_neg (hj i (le_refl _) (by omega))]
      exact ih (i + 1) (by omega) (by omega) (fun j h1 h2 => hj j (by omega) h2)

/-- What `val2Hex` does on a 64-bit value. -/
theorem val2Hex_spec (v : Nat) (buf : Buf) (hv : v < 2 ^ 64) :
    ∃ n out, val2Hex v buf = some (n, out) ∧ 1 ≤ n ∧ n ≤ 16 ∧
      v < 16 ^ n ∧ (v ≠ 0 → 16 ^ (n - 1) ≤ v) ∧ (v = 0 → n = 1) ∧
      (∀ i, i < n → out i = hex2Char (v / 16 ^ (n - 1 - i) % 16)) ∧
      out n = 0 ∧ (∀ j, n < j → out j = buf j) := by
  obtain ⟨n, buf1, h1, h2, h3, h4, h5, h5a, h6, h7⟩ :=
    val2HexLoop_spec 16 v buf 0 (by norm_num) (by norm_num at hv ⊢; exact hv)
  simp only [Nat.zero_add] at h1 h6 h7
  have hb : ∀ i, i < n → buf1 i < 256 := fun i hi => by
    rw [h6 i hi]; exact hex2Char_lt _
  have hout : ∀ i, i < n →
      (forUp (val2HexSwap n) (n / 2) buf1).set n 0 i = hex2Char (v / 16 ^ (n - 1 - i) % 16) := by
    intro i hi
    rw [Buf.set_other _ _ _ _ (by omega), val2HexSwap_reverse n buf1 hb, if_pos hi,
      h6 _ (by omega)]
  have hlen : strlenFrom ((forUp (val2HexSwap n) (n / 2) buf1).set n 0) (n + 1) 0 = some n := by
    apply strlenFrom_spec _ _ (Buf.set_same _ _ _) _ _ (by omega) (by omega)
    intro j _ hj
    rw [hout j hj]
    exact (hex2Char_of_lt _ (Nat.mod_lt _ (by norm_num))).2.1
  refine ⟨n, (forUp (val2HexSwap n) (n / 2) buf1).set n 0, ?_, h2, h3, h4, h5, h5a, hout,
    Buf.set_same _ _ _, ?_⟩
  · unfold val2Hex
    rw [h1]
    simp only [hlen]
  · intro j hj
    rw [Buf.set_other _ _ _ _ (by omega), val2HexSwap_reverse n buf1 hb, if_neg (by omega),
      h7 j (by omega)]

/-- The digits `val2Hex` writes have the value that was encoded. -/
theorem bigEndianValue_of_digits (v n : Nat) (out : Buf) (hv : v < 16 ^ n)
    (hd : ∀ i, i < n → out i = hex2Char (v / 16 ^ (n - 1 - i) % 16)) :
    ∀ k, k ≤ n → bigEndianValue out k = v / 16 ^ (n - k) := by
  intro k
  induction k with
  | zero =>
    intro _
    rw [Nat.sub_zero, Nat.div_eq_of_lt hv]
    rfl
  | succ k ih =>
    intro hk
    rw [bigEndianValue_succ, ih (by omega), hd k (by omega),
      (hex2Char_of_lt _ (Nat.mod_lt _ (by norm_num))).2.2.2.2.1,
      show n - k = (n - 1 - k) + 1 by omega, show n - (k + 1) = n - 1 - k by omega, pow_succ,
      ← Nat.div_div_eq_div_mul]
    omega

theorem val2Hex_digits (v n : Nat) (out : Buf) (hv : v < 16 ^ n)
    (hd : ∀ i, i < n → out i = hex2Char (v / 16 ^ (n - 1 - i) % 16)) :
    (∀ i, i < n → IsHexDigit (charVal (out i))) ∧ bigEndianValue out n = v := by
  refine ⟨fun i hi => ?_, ?_⟩
  · rw [hd i hi]
    exact (hex2Char_of_lt _ (Nat.mod_lt _ (by norm_num))).2.2.2.1
  · rw [bigEndianValue_of_digits v n out hv hd n (le_refl _)]
    simp

/-! ## C2 -/

/-- C2: for every unsigned 64-bit value `v` (0 and `UINT64_MAX` included),
`val2Hex v buf` returns, and `hex2Val` applied to the string it wrote, with
`len` the length it returned, is `v`. -/
theorem hex2Val_val2Hex (v : Nat) (buf : Buf) (hv : v < 2 ^ 64) :
    ∃ n out, val2Hex v buf = some (n, out) ∧ hex2Val out n = v := by
  obtain ⟨n, out, h1, _, h3, h4, _, _, h6, _, _⟩ := val2Hex_spec v buf hv
  have h7 := val2Hex_digits v n out h4 h6
  refine ⟨n, out, h1, ?_⟩
  rw [hex2Val_eq_mod out n h7.1, h7.2]
  exact Nat.mod_eq_of_lt hv

/-- C2 at `UINT64_MAX` and at 0: sixteen digits decode to `2 ^ 64 - 1`, the
single digit `0` decodes to 0. -/
theorem hex2Val_val2Hex_witness :
    (val2Hex (2 ^ 64 - 1) (Buf.ofList [])).map (fun r => (r.1, hex2Val r.2 r.1))
      = some (16, 2 ^ 64 - 1)
    ∧ (val2Hex 0 (Buf.ofList [])).map (fun r => (r.1, hex2Val r.2 r.1)) = some (1, 0)
    ∧ ∃ n out, val2Hex (2 ^ 64 - 1) (Buf.ofList []) = some (n, out)
        ∧ hex2Val out n = 2 ^ 64 - 1 :=
  ⟨by decide, by decide, hex2Val_val2Hex (2 ^ 64 - 1) (Buf.ofList []) (by norm_num)⟩

/-! ## C10 -/

/-- C10: for every unsigned 64-bit value `v`, `val2Hex v buf` returns the
number `n` of digits written, `1 ≤ n ≤ 16`; the `n` characters are lowercase
hexadecimal digits (entries of the table of `hex2Char`), digit `i` being
`v / 16 ^ (n - 1 - i) % 16`, and their big-endian value is `v`; the first is
not `'0'` unless `v = 0`, in which case exactly `"0"` is written; a NUL
follows the digits. -/
theorem val2Hex_shortest_digits (v : Nat) (buf : Buf) (hv : v < 2 ^ 64) :
    ∃ n out, val2Hex v buf = some (n, out) ∧ 1 ≤ n ∧ n ≤ 16 ∧
      (∀ i, i < n → out i ∈ hexMap) ∧
      (∀ i, i < n → out i = hex2Char (v / 16 ^ (n - 1 - i) % 16)) ∧
      bigEndianValue out n = v ∧
      (v ≠ 0 → out 0 ≠ 48) ∧
      (v = 0 → n = 1 ∧ out 0 = 48) ∧
      out n = 0 := by
  obtain ⟨n, out, h1, h2, h3, h4, h5, h5a, h6, h7, _⟩ := val2Hex_spec v buf hv
  have h8 := val2Hex_digits v n out h4 h6
  refine ⟨n, out, h1, h2, h3, ?_, h6, h8.2, ?_, ?_, h7⟩
  · intro i hi
    rw [h6 i hi]
    exact (hex2Char_of_lt _ (Nat.mod_lt _ (by norm_num))).1
  · intro hne
    have h9 := h5 hne
    rw [h6 0 (by omega), Nat.sub_zero]
    intro e
    have h10 := ((hex2Char_of_lt _ (Nat.mod_lt _ (by norm_num))).2.2.2.2.2).mp e
    have h11 : 0 < v / 16 ^ (n - 1) := Nat.div_pos h9 (by positivity)
    have h12 : v / 16 ^ (n - 1) < 16 := by
      rw [Nat.div_lt_iff_lt_mul (by positivity), ← pow_succ', Nat.sub_add_cancel h2]
      exact h4
    omega
  · intro e
    have h9 := h5a e
    subst h9
    refine ⟨rfl, ?_⟩
    rw [h6 0 (by omega), e]
    rfl

/-- C10 at `0x1a2`, `0` and `UINT64_MAX`: the strings `"1a2"`, `"0"` and
sixteen `f`, each followed by NUL. -/
theorem val2Hex_shortest_digits_witness :
    (val2Hex 0x1a2 (Buf.ofList [])).map (fun r => (r.1, Buf.take r.2 4))
      = some (3, [49, 97, 50, 0])
    ∧ (val2Hex 0 (Buf.ofList [7, 7])).map (fun r => (r.1, Buf.take r.2 2)) = some (1, [48, 0])
    ∧ (val2Hex (2 ^ 64 - 1) (Buf.ofList [])).map (fun r => (r.1, Buf.take r.2 17))
      = some (16, [102, 102, 102, 102, 102, 102, 102, 102, 102, 102, 102, 102, 102, 102, 102,
          102, 0])
    ∧ ∃ n out, val2Hex 0x1a2 (Buf.ofList []) = some (n, out) ∧ 1 ≤ n ∧ n ≤ 16 ∧
      (∀ i, i < n → out i ∈ hexMap) ∧
      (∀ i, i < n → out i = hex2Char (0x1a2 / 16 ^ (n - 1 - i) % 16)) ∧
      bigEndianValue out n = 0x1a2 ∧
      ((0x1a2 : Nat) ≠ 0 → out 0 ≠ 48) ∧
      ((0x1a2 : Nat) = 0 → n = 1 ∧ out 0 = 48) ∧
      out n = 0 :=
  ⟨by decide, by decide, by decide,
    val2Hex_shortest_digits 0x1a2 (Buf.ofList []) (by norm_num)⟩

/-! ## `regVal2Hex` -/

theorem regVal2HexBody_apply (n v : Nat) (b : Buf) :
    regVal2HexBody n (v, b)
      = (v / 256, (b.set (n * 2) (hex2Char (v % 256 / 16))).set (n * 2 + 1)
          (hex2Char (v % 256 % 16))) := by
  unfold regVal2HexBody
  simp only [and_0xff, and_0xf, shr4, Nat.mod_mod]
  rw [Nat.mod_eq_of_lt (show v % 256 / 16 < 16 by omega)]

theorem div_pow_succ_256 (v i : Nat) : v / 256 / 256 ^ i = v / 256 ^ (i + 1) := by
  rw [Nat.div_div_eq_div_mul, pow_succ, Nat.mul_comm]

/-- The little-endian loop: after `n` passes the characters of bytes `0 .. n - 1`
are in place, `val` has lost `n` bytes and the rest of the buffer is untouched. -/
theorem forUp_regVal2HexBody (v : Nat) (b : Buf) (n : Nat) :
    (forUp regVal2HexBody n (v, b)).1 = v / 256 ^ n ∧
    (∀ i, i < n →
      (forUp regVal2HexBody n (v, b)).2 (2 * i) = hex2Char (v / 256 ^ i % 256 / 16) ∧
      (forUp regVal2HexBody n (v, b)).2 (2 * i + 1) = hex2Char (v / 256 ^ i % 256 % 16)) ∧
    (∀ j, 2 * n ≤ j → (forUp regVal2HexBody n (v, b)).2 j = b j) := by
  induction n with
  | zero => simp [forUp_zero]
  | succ n ih =>
    obtain ⟨h1, h2, h3⟩ := ih
    rw [forUp_succ]
    generalize forUp regVal2HexBody n (v, b) = s at h1 h2 h3
    obtain ⟨w, c⟩ := s
    simp only at h1 h2 h3
    subst h1
    rw [regVal2HexBody_apply]
    dsimp only
    refine ⟨by rw [Nat.div_div_eq_div_mul, pow_succ], ?_, ?_⟩
    · intro i hi
      by_cases e : i = n
      · subst e
        constructor
        · rw [Buf.set_other _ _ _ _ (by omega), show i * 2 = 2 * i by omega, Buf.set_same,
            Nat.mod_eq_of_lt (hex2Char_lt _)]
        · rw [show i * 2 + 1 = 2 * i + 1 by omega, Buf.set_same,
            Nat.mod_eq_of_lt (hex2Char_lt _)]
      · have := h2 i (by omega)
        constructor
        · rw [Buf.set_other _ _ _ _ (by omega), Buf.set_other _ _ _ _ (by omega)]
          exact this.1
        · rw [Buf.set_other _ _ _ _ (by omega), Buf.set_other _ _ _ _ (by omega)]
          exact this.2
    · intro j hj
      rw [Buf.set_other _ _ _ _ (by omega), Buf.set_other _ _ _ _ (by omega)]
      exact h3 j (by omega)

/-- The descending loop: `m` passes write the characters of the low `m` bytes,
lowest byte at offset `2 * (m - 1)`, and touch nothing from offset `2 * m` on. -/
theorem forDown_regVal2HexBody (m : Nat) : ∀ (v : Nat) (b : Buf),
    (∀ i, i < m →
      (forDown regVal2HexBody m (v, b)).2 (2 * i) = hex2Char (v / 256 ^ (m - 1 - i) % 256 / 16) ∧
      (forDown regVal2HexBody m (v, b)).2 (2 * i + 1)
        = hex2Char (v / 256 ^ (m - 1 - i) % 256 % 16)) ∧
    (∀ j, 2 * m ≤ j → (forDown regVal2HexBody m (v, b)).2 j = b j) := by
  induction m with
  | zero =>
    intro v b
    exact ⟨fun i hi => by omega, fun j _ => rfl⟩
  | succ m ih =>
    intro v b
    show (∀ i, i < m + 1 →
      (forDown regVal2HexBody m (regVal2HexBody m (v, b))).2 (2 * i) = _ ∧
      (forDown regVal2HexBody m (regVal2HexBody m (v, b))).2 (2 * i + 1) = _) ∧
      (∀ j, 2 * (m + 1) ≤ j → (forDown regVal2HexBody m (regVal2HexBody m (v, b))).2 j = b j)
    rw [regVal2HexBody_apply]
    obtain ⟨h2, h3⟩ := ih (v / 256) ((b.set (m * 2) (hex2Char (v % 256 / 16))).set (m * 2 + 1)
          (hex2Char (v % 256 % 16)))
    refine ⟨?_, ?_⟩
    · intro i hi
      by_cases e : i = m
      · subst e
        rw [h3 _ (by omega), h3 _ (by omega), Nat.add_sub_cancel, Nat.sub_self, pow_zero,
          Nat.div_one]
        constructor
        · rw [Buf.set_other _ _ _ _ (by omega), show i * 2 = 2 * i by omega, Buf.set_same,
            Nat.mod_eq_of_lt (hex2Char_lt _)]
        · rw [show i * 2 + 1 = 2 * i + 1 by omega, Buf.set_same,
            Nat.mod_eq_of_lt (hex2Char_lt _)]
      · have := h2 i (by omega)
        rw [div_pow_succ_256, show m - 1 - i + 1 = m + 1 - 1 - i by omega] at this
        exact this
    · intro j hj
      rw [h3 j (by omega), Buf.set_other _ _ _ _ (by omega), Buf.set_other _ _ _ _ (by omega)]

theorem sizePred_of_pos (numBytes : Nat) (h1 : 1 ≤ numBytes) (h2 : numBytes < 2 ^ 64) :
    sizePred numBytes = numBytes - 1 := by
  unfold sizePred
  omega

/-! ## C5 -/

/-- C5: for every `val` and every `numBytes` (the claim's `numBytes ≥ 1`
included), `regVal2Hex val buf numBytes true` holds, for each `i < numBytes`,
the digit of the high nibble and then the digit of the low nibble of byte
`val / 256 ^ i % 256` at offsets `2 * i` and `2 * i + 1`, and a NUL at offset
`2 * numBytes`. -/
theorem regVal2Hex_littleEndian (val : Nat) (buf : Buf) (numBytes : Nat) :
    (∀ i, i < numBytes →
      regVal2Hex val buf numBytes true (2 * i) = hex2Char (val / 256 ^ i % 256 / 16) ∧
      regVal2Hex val buf numBytes true (2 * i + 1) = hex2Char (val / 256 ^ i % 256 % 16)) ∧
    regVal2Hex val buf numBytes true (2 * numBytes) = 0 := by
  obtain ⟨_, h2, _⟩ := forUp_regVal2HexBody val buf numBytes
  unfold regVal2Hex
  simp only [if_true]
  refine ⟨fun i hi => ⟨?_, ?_⟩, ?_⟩
  · rw [Buf.set_other _ _ _ _ (by omega)]
    exact (h2 i hi).1
  · rw [Buf.set_other _ _ _ _ (by omega)]
    exact (h2 i hi).2
  · rw [show 2 * numBytes = numBytes * 2 by omega, Buf.set_same]

/-- C5 at `val = 0x1234`, `numBytes = 2` and at `val = 0xab`, `numBytes = 3`:
the strings `"3412"` and `"ab0000"`, NUL-terminated. -/
theorem regVal2Hex_littleEndian_witness :
    Buf.take (regVal2Hex 0x1234 (Buf.ofList [9, 9, 9, 9, 9, 9]) 2 true) 6 = [51, 52, 49, 50, 0, 9]
    ∧ Buf.take (regVal2Hex 0xab (Buf.ofList []) 3 true) 7 = [97, 98, 48, 48, 48, 48, 0]
    ∧ (∀ i, i < 2 →
      regVal2Hex 0x1234 (Buf.ofList []) 2 true (2 * i) = hex2Char (0x1234 / 256 ^ i % 256 / 16) ∧
      regVal2Hex 0x1234 (Buf.ofList []) 2 true (2 * i + 1)
        = hex2Char (0x1234 / 256 ^ i % 256 % 16)) ∧
    regVal2Hex 0x1234 (Buf.ofList []) 2 true (2 * 2) = 0 :=
  ⟨by decide, by decide,
    regVal2Hex_littleEndian 0x1234 (Buf.ofList []) 2⟩

/-! ## C6 -/

/-- C6 (the code departs from it): for `1 ≤ numBytes`,
`regVal2Hex val buf numBytes false` runs its loop `numBytes - 1` times only.
The two characters at offsets `2 * (numBytes - 1)` and `2 * (numBytes - 1) + 1`
are left as the caller's buffer had them, and offset `2 * i`, `2 * i + 1`
for `i < numBytes - 1` holds the digits of byte `val / 256 ^ (numBytes - 2 - i) % 256`,
one byte lower than the claim's `val / 256 ^ (numBytes - 1 - i) % 256`. -/
theorem regVal2Hex_bigEndian_skips_last (val : Nat) (buf : Buf) (numBytes : Nat)
    (hn : 1 ≤ numBytes) (hs : numBytes < 2 ^ 64) :
    regVal2Hex val buf numBytes false (2 * (numBytes - 1)) = buf (2 * (numBytes - 1)) ∧
    regVal2Hex val buf numBytes false (2 * (numBytes - 1) + 1) = buf (2 * (numBytes - 1) + 1) ∧
    (∀ i, i < numBytes - 1 →
      regVal2Hex val buf numBytes false (2 * i)
        = hex2Char (val / 256 ^ (numBytes - 2 - i) % 256 / 16) ∧
      regVal2Hex val buf numBytes false (2 * i + 1)
        = hex2Char (val / 256 ^ (numBytes - 2 - i) % 256 % 16)) ∧
    regVal2Hex val buf numBytes false (2 * numBytes) = 0 := by
  obtain ⟨h2, h3⟩ := forDown_regVal2HexBody (numBytes - 1) val buf
  unfold regVal2Hex
  simp only [Bool.false_eq_true, if_false, sizePred_of_pos numBytes hn hs]
  refine ⟨?_, ?_, fun i hi => ⟨?_, ?_⟩, ?_⟩
  · rw [Buf.set_other _ _ _ _ (by omega)]
    exact h3 _ (by omega)
  · rw [Buf.set_other _ _ _ _ (by omega)]
    exact h3 _ (by omega)
  · rw [Buf.set_other _ _ _ _ (by omega), show numBytes - 2 - i = numBytes - 1 - 1 - i by omega]
    exact (h2 i hi).1
  · rw [Buf.set_other _ _ _ _ (by omega), show numBytes - 2 - i = numBytes - 1 - 1 - i by omega]
    exact (h2 i hi).2
  · rw [show 2 * numBytes = numBytes * 2 by omega, Buf.set_same]

/-- C6 at `val = 0xab`, `numBytes = 1` and `val = 0x1234`, `numBytes = 2`, on a
buffer of NULs: nothing of `"ab"` is written, and `"34"` lands where `"12"`
belongs while the place of `"34"` stays NUL. -/
theorem regVal2Hex_bigEndian_skips_last_witness :
    Buf.take (regVal2Hex 0xab (Buf.ofList []) 1 false) 3 = [0, 0, 0]
    ∧ Buf.take (regVal2Hex 0x1234 (Buf.ofList []) 2 false) 5 = [51, 52, 0, 0, 0]
    ∧ regVal2Hex 0xab (Buf.ofList []) 1 false 0 ≠ hex2Char (0xab / 256 ^ (1 - 1 - 0) % 256 / 16)
    ∧ regVal2Hex 0xab (Buf.ofList [120, 121]) 1 false (2 * (1 - 1)) = 120 :=
  ⟨by decide, by decide, by decide,
    (regVal2Hex_bigEndian_skips_last 0xab (Buf.ofList [120, 121]) 1 (by norm_num)
      (by norm_num)).1⟩

/-! ## C1 -/

/-- C1 (the code departs from it): the descending loops of `regVal2Hex` (big
endian) and of `hex2RegVal` (little endian) make one pass too few. With
`n = 1`, little endian, every `v` decodes to 0, so `v = 1` does not come
back; with `n = 1`, big endian, the encoder writes no digit and the decoder
returns what the buffer held before, whatever `v` is; with `n = 2`,
`v = 0x1234`, little endian gives `0x34`. -/
theorem hex2RegVal_regVal2Hex_loses_byte :
    Buf.take (regVal2Hex 1 (Buf.ofList []) 1 true) 3 = [48, 49, 0]
    ∧ hex2RegVal (regVal2Hex 1 (Buf.ofList []) 1 true) 1 true = 0
    ∧ (∀ v buf, hex2RegVal (regVal2Hex v buf 1 true) 1 true = 0)
    ∧ (∀ v buf, hex2RegVal (regVal2Hex v buf 1 false) 1 false = hex2RegVal buf 1 false)
    ∧ hex2RegVal (regVal2Hex 1 (Buf.ofList [48, 48]) 1 false) 1 false = 0
    ∧ hex2RegVal (regVal2Hex 0x1234 (Buf.ofList []) 2 true) 2 true = 0x34
    ∧ hex2RegVal (regVal2Hex 0x1234 (Buf.ofList [48, 48, 48, 48]) 2 false) 2 false = 0x3400 := by
  refine ⟨by decide, by decide, fun _ _ => rfl, fun _ _ => rfl, by decide, by decide, by decide⟩

/-! ## C4 -/

/-- C4 (the code departs from it): on the one-byte buffer `"}"`, `len = 1`,
`rspUnescape` reports no error. It returns length 1, and the byte it leaves at
offset 0 is the byte at offset 1, past the end of the data, XOR `0x20`: two
memories that agree on the `len` bytes of the buffer and differ behind it
give different results. -/
theorem rspUnescape_reads_past_end :
    (rspUnescape (Buf.ofList [125, 65]) 1).map (fun r => (r.1, r.2 0)) = some (1, 97)
    ∧ (rspUnescape (Buf.ofList [125, 66]) 1).map (fun r => (r.1, r.2 0)) = some (1, 98)
    ∧ (∀ x, x < 128 →
        (rspUnescape (Buf.ofList [125, x]) 1).map (fun r => (r.1, r.2 0))
          = some (1, x ^^^ 0x20)) := by
  refine ⟨by decide, by decide, by decide⟩

/-! ## `rspUnescape` -/

theorem Buf.take_eq (out : Buf) (l : List Nat) (h : ∀ i, i < l.length → out i = l.getD i 0) :
    Buf.take out l.length = l := by
  apply List.ext_getElem
  · simp [Buf.take]
  · intro i h1 h2
    simp only [Buf.take, List.getElem_map, List.getElem_range]
    rw [h i h2, List.getD_eq_getElem _ _ h2]

theorem charVal_ne_marker (c : Nat) (h : c ≠ 125) (hc : c < 256) : ¬ 125 = charVal c := by
  unfold charVal
  split_ifs <;> omega

theorem unescape_special (c : Nat) (h : c = 35 ∨ c = 36 ∨ c = 125) :
    toUInt8 ((charVal (c ^^^ 0x20)).xor 0x20) % 256 = c := by
  rcases h with rfl | rfl | rfl <;> decide

/-- The loop of `rspUnescape` on a buffer that holds `escape b` from
`fromOffset` on: it ends with `b` stored from `toOffset` on. -/
theorem rspUnescapeLoop_escape (b : List Nat) : ∀ (len fuel : Nat) (s : UnescapeState),
    (∀ x, x ∈ b → x < 256) → (escape b).length ≤ fuel → s.toOffset ≤ s.fromOffset →
    len = s.fromOffset + (escape b).length →
    (∀ i, i < (escape b).length → s.buf (s.fromOffset + i) = (escape b).getD i 0) →
    ∃ out, rspUnescapeLoop len fuel s
        = some { buf := out, fromOffset := len, toOffset := s.toOffset + b.length } ∧
      (∀ i, i < b.length → out (s.toOffset + i) = b.getD i 0) ∧
      (∀ j, j < s.toOffset → out j = s.buf j) := by
  induction b with
  | nil =>
    intro len fuel s _ _ _ hlen _
    simp only [escape, List.length_nil, Nat.add_zero] at hlen
    refine ⟨s.buf, ?_, fun i hi => by simp at hi, fun _ _ => rfl⟩
    subst hlen
    cases fuel <;> simp [rspUnescapeLoop]
  | cons c cs ih =>
    intro len fuel s hb hfuel hto hlen hbuf
    have hcs : ∀ x, x ∈ cs → x < 256 := fun x hx => hb x (List.mem_cons_of_mem _ hx)
    have hc : c < 256 := hb c (List.mem_cons_self _ _)
    by_cases hsp : c = 35 ∨ c = 36 ∨ c = 125
    · have he : escape (c :: cs) = 125 :: (c ^^^ 0x20) :: escape cs := by
        simp [escape, hsp]
      rw [he] at hfuel hlen hbuf
      simp only [List.length_cons] at hfuel hlen hbuf
      obtain ⟨f, rfl⟩ : ∃ f, fuel = f + 1 := ⟨fuel - 1, by omega⟩
      have h0 : s.buf s.fromOffset = 125 := by simpa using hbuf 0 (by omega)
      have h1 : s.buf (s.fromOffset + 1) = c ^^^ 0x20 := by simpa using hbuf 1 (by omega)
      have hbody : rspUnescapeBody s
          = { buf := s.buf.set s.toOffset c, fromOffset := s.fromOffset + 1 + 1,
              toOffset := s.toOffset + 1 } := by
        unfold rspUnescapeBody
        rw [h0, if_pos (by decide)]
        simp only [h1]
        congr 1
        funext j
        unfold Buf.set
        rw [unescape_special c hsp, Nat.mod_eq_of_lt hc]
      obtain ⟨out, h2, h3, h4⟩ := ih len f _ hcs (by omega)
        (show (rspUnescapeBody s).toOffset ≤ (rspUnescapeBody s).fromOffset by
          rw [hbody]; simp only; omega)
        (by rw [hbody]; simp only; omega)
        (by
          rw [hbody]
          intro i hi
          simp only
          rw [Buf.set_other _ _ _ _ (by omega)]
          have := hbuf (i + 2) (by omega)
          rw [show s.fromOffset + 1 + 1 + i = s.fromOffset + (i + 2) by omega, this]
          simp)
      rw [hbody] at h2 h3 h4
      simp only at h2 h3 h4
      refine ⟨out, ?_, ?_, ?_⟩
      · rw [rspUnescapeLoop, if_pos (by omega), hbody, h2, List.length_cons]
        congr 2
        omega
      · intro i hi
        rcases Nat.eq_zero_or_pos i with e | e
        · subst e
          rw [Nat.add_zero, h4 _ (by omega), Buf.set_same, Nat.mod_eq_of_lt hc]
          simp
        · obtain ⟨m, rfl⟩ : ∃ m, i = m + 1 := ⟨i - 1, by omega⟩
          simp only [List.length_cons] at hi
          have := h3 m (by omega)
          rw [show s.toOffset + (m + 1) = s.toOffset + 1 + m by omega, this]
          simp
      · intro j hj
        rw [h4 j (by omega), Buf.set_other _ _ _ _ (by omega)]
    · have he : escape (c :: cs) = c :: escape cs := by
        simp [escape, hsp]
      rw [he] at hfuel hlen hbuf
      simp only [List.length_cons] at hfuel hlen hbuf
      obtain ⟨f, rfl⟩ : ∃ f, fuel = f + 1 := ⟨fuel - 1, by omega⟩
      have h0 : s.buf s.fromOffset = c := by simpa using hbuf 0 (by omega)
      have hbody : rspUnescapeBody s
          = { buf := s.buf.set s.toOffset c, fromOffset := s.fromOffset + 1,
              toOffset := s.toOffset + 1 } := by
        unfold rspUnescapeBody
        rw [h0, if_neg (charVal_ne_marker c (by omega) hc)]
      obtain ⟨out, h2, h3, h4⟩ := ih len f _ hcs (by omega)
        (show (rspUnescapeBody s).toOffset ≤ (rspUnescapeBody s).fromOffset by
          rw [hbody]; simp only; omega)
        (by rw [hbody]; simp only; omega)
        (by
          rw [hbody]
          intro i hi
          simp only
          rw [Buf.set_other _ _ _ _ (by omega)]
          have := hbuf (i + 1) (by omega)
          rw [show s.fromOffset + 1 + i = s.fromOffset + (i + 1) by omega, this]
          simp)
      rw [hbody] at h2 h3 h4
      simp only at h2 h3 h4
      refine ⟨out, ?_, ?_, ?_⟩
      · rw [rspUnescapeLoop, if_pos (by omega), hbody, h2, List.length_cons]
        congr 2
        omega
      · intro i hi
        rcases Nat.eq_zero_or_pos i with e | e
        · subst e
          rw [Nat.add_zero, h4 _ (by omega), Buf.set_same, Nat.mod_eq_of_lt hc]
          simp
        · obtain ⟨m, rfl⟩ : ∃ m, i = m + 1 := ⟨i - 1, by omega⟩
          simp only [List.length_cons] at hi
          have := h3 m (by omega)
          rw [show s.toOffset + (m + 1) = s.toOffset + 1 + m by omega, this]
          simp
      · intro j hj
        rw [h4 j (by omega), Buf.set_other _ _ _ _ (by omega)]

/-! ## C3 -/

/-- C3: for every byte sequence `b` (the claim's non-empty ones included) and
every buffer that starts with `escape b`, `rspUnescape` applied to the buffer
with the full length of `escape b` returns `len(b)` and leaves exactly `b` in
the first `len(b)` bytes. -/
theorem rspUnescape_escape (b : List Nat) (buf : Buf) (hb : ∀ x, x ∈ b → x < 256)
    (hbuf : ∀ i, i < (escape b).length → buf i = (escape b).getD i 0) :
    ∃ out, rspUnescape buf (escape b).length = some (b.length, out) ∧
      Buf.take out b.length = b := by
  obtain ⟨out, h1, h2, _⟩ := rspUnescapeLoop_escape b (escape b).length (escape b).length
    { buf := buf, fromOffset := 0, toOffset := 0 } hb (le_refl _) (le_refl _)
    (by simp) (by simpa using hbuf)
  refine ⟨out, ?_, ?_⟩
  · unfold rspUnescape
    rw [h1]
    simp
  · apply Buf.take_eq
    intro i hi
    simpa using h2 i hi

/-- C3 at `b = "a#$}b"`: `escape b` is `a } 0x03 } 0x04 } ] b`, and unescaping
its eight bytes gives back the five of `b`. -/
theorem rspUnescape_escape_witness :
    escape [97, 35, 36, 125, 98] = [97, 125, 3, 125, 4, 125, 93, 98]
    ∧ (rspUnescape (Buf.ofList (escape [97, 35, 36, 125, 98])) 8).map
        (fun r => (r.1, Buf.take r.2 5)) = some (5, [97, 35, 36, 125, 98])
    ∧ ∃ out, rspUnescape (Buf.ofList (escape [97, 35, 36, 125, 98]))
          (escape [97, 35, 36, 125, 98]).length
        = some ([97, 35, 36, 125, 98].length, out) ∧
      Buf.take out [97, 35, 36, 125, 98].length = [97, 35, 36, 125, 98] :=
  ⟨by decide, by decide,
    rspUnescape_escape [97, 35, 36, 125, 98] (Buf.ofList (escape [97, 35, 36, 125, 98]))
      (by decide) (fun _ _ => rfl)⟩

theorem rspUnescapeBody_fromOffset (s : UnescapeState) :
    s.fromOffset < (rspUnescapeBody s).fromOffset := by
  unfold rspUnescapeBody
  split_ifs <;> simp only <;> omega

/-- The loop of `rspUnescape` ends within `len` passes on every buffer. -/
theorem rspUnescapeLoop_total (len : Nat) : ∀ (fuel : Nat) (s : UnescapeState),
    len ≤ s.fromOffset + fuel → ∃ r, rspUnescapeLoop len fuel s = some r := by
  intro fuel
  induction fuel with
  | zero =>
    intro s h
    exact ⟨s, by rw [rspUnescapeLoop, if_neg (by omega)]⟩
  | succ fuel ih =>
    intro s h
    rw [rspUnescapeLoop]
    by_cases h1 : s.fromOffset < len
    · rw [if_pos h1]
      exact ih _ (by have := rspUnescapeBody_fromOffset s; omega)
    · rw [if_neg h1]
      exact ⟨s, rfl⟩

theorem rspUnescape_total (buf : Buf) (len : Nat) : ∃ r, rspUnescape buf len = some r := by
  obtain ⟨r, h⟩ := rspUnescapeLoop_total len len { buf := buf, fromOffset := 0, toOffset := 0 }
    (by simp)
  exact ⟨_, by rw [rspUnescape, h]; rfl⟩

/-! ## `hex2Ascii` and `hex2Val` on characters that are not digits -/

/-- The loop of `hex2Ascii` ends once it meets a NUL in `src`. -/
theorem hex2AsciiLoop_total (src : Buf) (k : Nat) (hk : src k = 0) : ∀ (fuel i : Nat) (dest : Buf),
    (∀ j, j < 2 * i → src j ≠ 0) → k < 2 * (i + fuel) →
    ∃ out, hex2AsciiLoop src fuel i dest = some out := by
  intro fuel
  induction fuel with
  | zero =>
    intro i dest hj h
    exact absurd hk (hj k (by omega))
  | succ fuel ih =>
    intro i dest hj h
    unfold hex2AsciiLoop
    by_cases h1 : src (i * 2) ≠ 0 ∧ src (i * 2 + 1) ≠ 0
    · rw [if_pos h1]
      refine ih _ _ (fun j hlt => ?_) (by omega)
      by_cases e1 : j = i * 2
      · rw [e1]; exact h1.1
      · by_cases e2 : j = i * 2 + 1
        · rw [e2]; exact h1.2
        · exact hj j (by omega)
    · rw [if_neg h1]
      exact ⟨_, rfl⟩

/-- C20: for every `numBytes` and every buffer, hexadecimal digits or not, the
big-endian register decoder agrees with the general parser on twice as many
characters: `hex2RegVal buf numBytes false = hex2Val buf (2 * numBytes)`, both
being folds of the same 64-bit `(val << 4) | char2Hex(c)`. -/
theorem hex2RegVal_bigEndian_eq_hex2Val (buf : Buf) (numBytes : Nat) :
    hex2RegVal buf numBytes false = hex2Val buf (2 * numBytes) := by
  unfold hex2RegVal hex2Val
  simp only [Bool.false_eq_true, if_false]
  induction numBytes with
  | zero => rfl
  | succ n ih =>
    rw [show 2 * (n + 1) = 2 * n + 1 + 1 by omega, forUp_succ, forUp_succ, forUp_succ, ih]
    unfold hex2RegValBody
    rw [show n * 2 = 2 * n by omega]

/-- C20 at `"12zz"`, two bytes, where two characters are no digits. -/
theorem hex2RegVal_bigEndian_eq_hex2Val_witness :
    hex2RegVal (Buf.ofList [49, 50, 122, 122]) 2 false = 0x1fff
    ∧ hex2Val (Buf.ofList [49, 50, 122, 122]) 4 = 0x1fff
    ∧ hex2RegVal (Buf.ofList [49, 50, 122, 122]) 2 false
        = hex2Val (Buf.ofList [49, 50, 122, 122]) (2 * 2) :=
  ⟨by decide, by decide, hex2RegVal_bigEndian_eq_hex2Val (Buf.ofList [49, 50, 122, 122]) 2⟩

/-! ## `isHexStr` -/

theorem isxdigit_iff (c : Int) : isxdigit c = true ↔ IsHexDigit c := by
  unfold isxdigit IsHexDigit
  simp only [Bool.or_eq_true, Bool.and_eq_true, decide_eq_true_eq]
  omega

theorem isHexStrLoop_iff (buf : Buf) (k : Nat) : ∀ i,
    isHexStrLoop buf k i = true ↔ ∀ j, j < k → IsHexDigit (charVal (buf (i + j))) := by
  induction k with
  | zero => intro i; simp [isHexStrLoop]
  | succ k ih =>
    intro i
    unfold isHexStrLoop
    by_cases h : isxdigit (charVal (buf i)) = true
    · rw [h]
      simp only [Bool.not_true, Bool.false_eq_true, if_false, ih]
      constructor
      · intro h1 j hj
        rcases Nat.eq_zero_or_pos j with e | e
        · subst e
          exact (isxdigit_iff _).mp h
        · have := h1 (j - 1) (by omega)
          rwa [show i + 1 + (j - 1) = i + j by omega] at this
      · intro h1 j hj
        have := h1 (j + 1) (by omega)
        rwa [show i + (j + 1) = i + 1 + j by omega] at this
    · have h' : isxdigit (charVal (buf i)) = false := by simpa using h
      rw [h']
      simp only [Bool.not_false, if_true, Bool.false_eq_true, false_iff]
      intro h1
      exact h ((isxdigit_iff _).mpr (h1 0 (by omega)))

/-! ## C14 -/

/-- C14: for every buffer and every `len`, `isHexStr buf len` is true if and
only if `len ≥ 1` and each of the first `len` bytes is one of `0-9`, `a-f`,
`A-F`. -/
theorem isHexStr_iff (buf : Buf) (len : Nat) :
    isHexStr buf len = true ↔ 1 ≤ len ∧ ∀ i, i < len → IsHexDigit (charVal (buf i)) := by
  unfold isHexStr
  by_cases h : len < 1
  · rw [if_pos h]
    simp only [Bool.false_eq_true, false_iff]
    omega
  · rw [if_neg h, isHexStrLoop_iff]
    simp only [Nat.zero_add]
    exact ⟨fun h1 => ⟨by omega, h1⟩, fun h1 => h1.2⟩

/-- C14 at the three examples: false for the empty string, true for `"1a2B"`,
false for `"1g"`. -/
theorem isHexStr_iff_witness :
    isHexStr (Buf.ofList []) 0 = false
    ∧ isHexStr (Buf.ofList [49, 97, 50, 66]) 4 = true
    ∧ isHexStr (Buf.ofList [49, 103]) 2 = false
    ∧ (isHexStr (Buf.ofList [49, 97, 50, 66]) 4 = true ↔
        1 ≤ 4 ∧ ∀ i, i < 4 → IsHexDigit (charVal (Buf.ofList [49, 97, 50, 66] i))) :=
  ⟨by decide, by decide, by decide, isHexStr_iff (Buf.ofList [49, 97, 50, 66]) 4⟩

/-! ## `ascii2Hex` -/

set_option maxRecDepth 20000 in
theorem xor_0x20_byte : ∀ x, x < 256 → toUInt8 ((charVal x).xor 0x20) = x ^^^ 0x20 := by
  decide

theorem unescaped_plain (c : Nat) (t : List Nat) (h : c ≠ 125) :
    unescaped (c :: t) = c :: unescaped t ∧ escapeCount (c :: t) = escapeCount t ∧
      (EscapesComplete (c :: t) ↔ EscapesComplete t) := by
  cases t with
  | nil => simp [unescaped, escapeCount, EscapesComplete, h]
  | cons x rest => simp [unescaped, escapeCount, EscapesComplete, h]

theorem unescaped_pair (x : Nat) (rest : List Nat) :
    unescaped (125 :: x :: rest) = (x ^^^ 0x20) :: unescaped rest ∧
      escapeCount (125 :: x :: rest) = escapeCount rest + 1 ∧
      (EscapesComplete (125 :: x :: rest) ↔ EscapesComplete rest) := by
  simp [unescaped, escapeCount, EscapesComplete]

theorem unescaped_length (l : List Nat) : ∀ n, l.length ≤ n → EscapesComplete l →
    (unescaped l).length + escapeCount l = l.length := by
  intro n
  induction n generalizing l with
  | zero =>
    intro h _
    obtain rfl : l = [] := List.length_eq_zero.mp (by omega)
    rfl
  | succ n ih =>
    intro h hc
    cases l with
    | nil => rfl
    | cons c t =>
      by_cases e : c = 125
      · subst e
        cases t with
        | nil => exact absurd rfl hc
        | cons x rest =>
          obtain ⟨h1, h2, h3⟩ := unescaped_pair x rest
          have := ih rest (by simp at h; omega) (h3.mp hc)
          rw [h1, h2]
          simp only [List.length_cons]
          omega
      · obtain ⟨h1, h2, h3⟩ := unescaped_plain c t e
        have := ih t (by simp at h; omega) (h3.mp hc)
        rw [h1, h2]
        simp only [List.length_cons]
        omega

theorem unescaped_of_no_marker (l : List Nat) (h : 125 ∉ l) :
    unescaped l = l ∧ escapeCount l = 0 ∧ EscapesComplete l := by
  induction l with
  | nil => exact ⟨rfl, rfl, trivial⟩
  | cons c t ih =>
    have hc : c ≠ 125 := fun e => h (by simp [e])
    obtain ⟨h1, h2, h3⟩ := ih (fun e => h (List.mem_cons_of_mem _ e))
    obtain ⟨h4, h5, h6⟩ := unescaped_plain c t hc
    exact ⟨by rw [h4, h1], by rw [h5, h2], h6.mpr h3⟩

/-- The loop of `rspUnescape` on a buffer that holds a well-formed `l` from
`fromOffset` on: it ends with the decoding of `l` stored from `toOffset` on. -/
theorem rspUnescapeLoop_unescaped (n : Nat) : ∀ (l : List Nat) (len fuel : Nat)
    (s : UnescapeState), l.length ≤ n →
    (∀ x, x ∈ l → x < 256) → EscapesComplete l → l.length ≤ fuel →
    s.toOffset ≤ s.fromOffset → len = s.fromOffset + l.length →
    (∀ i, i < l.length → s.buf (s.fromOffset + i) = l.getD i 0) →
    ∃ out, rspUnescapeLoop len fuel s
        = some { buf := out, fromOffset := len,
                 toOffset := s.toOffset + (unescaped l).length } ∧
      (∀ i, i < (unescaped l).length → out (s.toOffset + i) = (unescaped l).getD i 0) ∧
      (∀ j, j < s.toOffset → out j = s.buf j) := by
  induction n with
  | zero =>
    intro l len fuel s hl _ _ _ _ hlen _
    obtain rfl : l = [] := List.length_eq_zero.mp (by omega)
    simp only [List.length_nil, Nat.add_zero] at hlen
    refine ⟨s.buf, ?_, fun i hi => by simp [unescaped] at hi, fun _ _ => rfl⟩
    subst hlen
    cases fuel <;> simp [rspUnescapeLoop, unescaped]
  | succ n ih =>
    intro l len fuel s hl hb hc hfuel hto hlen hbuf
    cases l with
    | nil =>
      simp only [List.length_nil, Nat.add_zero] at hlen
      refine ⟨s.buf, ?_, fun i hi => by simp [unescaped] at hi, fun _ _ => rfl⟩
      subst hlen
      cases fuel <;> simp [rspUnescapeLoop, unescaped]
    | cons c t =>
      by_cases e : c = 125
      · subst e
        cases t with
        | nil => exact absurd rfl hc
        | cons x rest =>
          obtain ⟨h1, _, h3⟩ := unescaped_pair x rest
          have hx : x < 256 := hb x (by simp)
          simp only [List.length_cons] at hl hfuel hlen hbuf
          obtain ⟨f, rfl⟩ : ∃ f, fuel = f + 1 := ⟨fuel - 1, by omega⟩
          have h0 : s.buf s.fromOffset = 125 := by simpa using hbuf 0 (by omega)
          have hx1 : s.buf (s.fromOffset + 1) = x := by simpa using hbuf 1 (by omega)
          have hbody : rspUnescapeBody s
              = { buf := s.buf.set s.toOffset (x ^^^ 0x20), fromOffset := s.fromOffset + 1 + 1,
                  toOffset := s.toOffset + 1 } := by
            unfold rspUnescapeBody
            rw [h0, if_pos (by decide)]
            simp only [hx1, xor_0x20_byte x hx]
          obtain ⟨out, h4, h5, h6⟩ := ih rest len f (rspUnescapeBody s) (by omega)
            (fun y hy => hb y (by simp [hy])) (h3.mp hc) (by omega)
            (by rw [hbody]; simp only; omega)
            (by rw [hbody]; simp only; omega)
            (by
              rw [hbody]
              intro i hi
              simp only
              rw [Buf.set_other _ _ _ _ (by omega)]
              have := hbuf (i + 2) (by omega)
              rw [show s.fromOffset + 1 + 1 + i = s.fromOffset + (i + 2) by omega, this]
              simp)
          rw [hbody] at h4 h5 h6
          simp only at h4 h5 h6
          have hlt : x ^^^ 0x20 < 256 :=
            Nat.xor_lt_two_pow (n := 8) (by simpa using hx) (by norm_num)
          refine ⟨out, ?_, ?_, ?_⟩
          · rw [rspUnescapeLoop, if_pos (by omega), hbody, h4, h1, List.length_cons]
            congr 2
            omega
          · rw [h1]
            intro i hi
            rcases Nat.eq_zero_or_pos i with e | e
            · subst e
              rw [Nat.add_zero, h6 _ (by omega), Buf.set_same, Nat.mod_eq_of_lt hlt]
              simp
            · obtain ⟨m, rfl⟩ : ∃ m, i = m + 1 := ⟨i - 1, by omega⟩
              simp only [List.length_cons] at hi
              have := h5 m (by omega)
              rw [show s.toOffset + (m + 1) = s.toOffset + 1 + m by omega, this]
              simp
          · intro j hj
            rw [h6 j (by omega), Buf.set_other _ _ _ _ (by omega)]
      · obtain ⟨h1, _, h3⟩ := unescaped_plain c t e
        have hx : c < 256 := hb c (by simp)
        simp only [List.length_cons] at hl hfuel hlen hbuf
        obtain ⟨f, rfl⟩ : ∃ f, fuel = f + 1 := ⟨fuel - 1, by omega⟩
        have h0 : s.buf s.fromOffset = c := by simpa using hbuf 0 (by omega)
        have hbody : rspUnescapeBody s
            = { buf := s.buf.set s.toOffset c, fromOffset := s.fromOffset + 1,
                toOffset := s.toOffset + 1 } := by
          unfold rspUnescapeBody
          rw [h0, if_neg (charVal_ne_marker c e hx)]
        obtain ⟨out, h4, h5, h6⟩ := ih t len f (rspUnescapeBody s) (by omega)
          (fun y hy => hb y (by simp [hy])) (h3.mp hc) (by omega)
          (by rw [hbody]; simp only; omega)
          (by rw [hbody]; simp only; omega)
          (by
            rw [hbody]
            intro i hi
            simp only
            rw [Buf.set_other _ _ _ _ (by omega)]
            have := hbuf (i + 1) (by omega)
            rw [show s.fromOffset + 1 + i = s.fromOffset + (i + 1) by omega, this]
            simp)
        rw [hbody] at h4 h5 h6
        simp only at h4 h5 h6
        refine ⟨out, ?_, ?_, ?_⟩
        · rw [rspUnescapeLoop, if_pos (by omega), hbody, h4, h1, List.length_cons]
          congr 2
          omega
        · rw [h1]
          intro i hi
          rcases Nat.eq_zero_or_pos i with e | e
          · subst e
            rw [Nat.add_zero, h6 _ (by omega), Buf.set_same, Nat.mod_eq_of_lt hx]
            simp
          · obtain ⟨m, rfl⟩ : ∃ m, i = m + 1 := ⟨i - 1, by omega⟩
            simp only [List.length_cons] at hi
            have := h5 m (by omega)
            rw [show s.toOffset + (m + 1) = s.toOffset + 1 + m by omega, this]
            simp
        · intro j hj
          rw [h6 j (by omega), Buf.set_other _ _ _ _ (by omega)]

/-! ## C11 -/

/-- C11: for every byte sequence `l` in which no escape sequence is cut off
by the end, and every buffer that starts with `l`, `rspUnescape buf len`
with `len` the length of `l` returns `r = len - (number of escape sequences)`,
so `r ≤ len`, and leaves in `buf[0..r)` the left-to-right decoding of `l`; when
`l` holds no `}` the first `len` bytes are as before and `r = len`. -/
theorem rspUnescape_decodes (l : List Nat) (buf : Buf) (hb : ∀ x, x ∈ l → x < 256)
    (hc : EscapesComplete l) (hbuf : ∀ i, i < l.length → buf i = l.getD i 0) :
    ∃ r out, rspUnescape buf l.length = some (r, out) ∧
      r = l.length - escapeCount l ∧ r ≤ l.length ∧
      Buf.take out r = unescaped l ∧
      (125 ∉ l → r = l.length ∧ Buf.take out l.length = l) := by
  obtain ⟨out, h1, h2, _⟩ := rspUnescapeLoop_unescaped l.length l l.length l.length
    { buf := buf, fromOffset := 0, toOffset := 0 } (le_refl _) hb hc (le_refl _) (le_refl _)
    (by simp) (by simpa using hbuf)
  have h3 := unescaped_length l l.length (le_refl _) hc
  have h4 : Buf.take out (unescaped l).length = unescaped l :=
    Buf.take_eq out _ (fun i hi => by simpa using h2 i hi)
  refine ⟨(unescaped l).length, out, ?_, by omega, by omega, h4, ?_⟩
  · unfold rspUnescape
    rw [h1]
    simp
  · intro hno
    obtain ⟨h5, _, _⟩ := unescaped_of_no_marker l hno
    rw [h5] at h4
    exact ⟨by rw [h5], h4⟩

/-- C11 at `"a}\x03b}]"` (six bytes, two escape sequences), decoded to `"a#b}"`,
and at `"abc"`, which has no `}`. -/
theorem rspUnescape_decodes_witness :
    (rspUnescape (Buf.ofList [97, 125, 3, 98, 125, 93]) 6).map (fun r => (r.1, Buf.take r.2 4))
      = some (4, [97, 35, 98, 125])
    ∧ (rspUnescape (Buf.ofList [97, 98, 99]) 3).map (fun r => (r.1, Buf.take r.2 3))
      = some (3, [97, 98, 99])
    ∧ ∃ r out, rspUnescape (Buf.ofList [97, 125, 3, 98, 125, 93])
          [97, 125, 3, 98, 125, 93].length = some (r, out) ∧
      r = [97, 125, 3, 98, 125, 93].length - escapeCount [97, 125, 3, 98, 125, 93] ∧
      r ≤ [97, 125, 3, 98, 125, 93].length ∧
      Buf.take out r = unescaped [97, 125, 3, 98, 125, 93] ∧
      (125 ∉ [97, 125, 3, 98, 125, 93] →
        r = [97, 125, 3, 98, 125, 93].length ∧
        Buf.take out [97, 125, 3, 98, 125, 93].length = [97, 125, 3, 98, 125, 93]) :=
  ⟨by decide, by decide,
    rspUnescape_decodes [97, 125, 3, 98, 125, 93] (Buf.ofList [97, 125, 3, 98, 125, 93])
      (by decide) (by simp [EscapesComplete]) (fun _ _ => rfl)⟩

end Utils

/-! ## C18 -/

/-- C18 (the code departs from it): `erase` clears as many bytes as the
capacity configured at the time of the call, whatever the storage of the
builder holds. For every builder and every current capacity `bufSize` the size
is 0 afterwards, the offsets below `bufSize` are zero, and every offset from
`bufSize` on is as before, inside the storage or behind it. -/
theorem erase_clears_current_capacity (bufSize : Nat) (b : RspPacketBuilder) :
    (b.erase bufSize).getSize = 0 ∧
    (b.erase bufSize).capacity = b.capacity ∧
    (∀ i, i < bufSize → (b.erase bufSize).data i = 0) ∧
    (∀ i, bufSize ≤ i → (b.erase bufSize).data i = b.data i) := by
  refine ⟨rfl, rfl, ?_, ?_⟩
  · intro i hi
    simp [RspPacketBuilder.erase, memsetZero, hi]
  · intro i hi
    simp [RspPacketBuilder.erase, memsetZero, Nat.not_lt.mpr hi]

/-- C18 at a builder with storage of four chars holding `1 2 3`, erased under
capacity 2: byte 2 of the storage is still 3. And at a builder with storage of
two chars, erased under capacity 4: the two bytes behind the storage, 9 and 9
before, are cleared as well. -/
theorem erase_clears_current_capacity_witness :
    Utils.Buf.take (RspPacketBuilder.erase 2
        { data := Utils.Buf.ofList [1, 2, 3, 0], capacity := 4, len := 3 }).data 4 = [0, 0, 3, 0]
    ∧ ¬ (∀ i, i < 4 → (RspPacketBuilder.erase 2
        { data := Utils.Buf.ofList [1, 2, 3, 0], capacity := 4, len := 3 }).data i = 0)
    ∧ Utils.Buf.take (RspPacketBuilder.erase 4
        { data := Utils.Buf.ofList [1, 2, 9, 9], capacity := 2, len := 2 }).data 4 = [0, 0, 0, 0]
    ∧ (RspPacketBuilder.erase 2
        { data := Utils.Buf.ofList [1, 2, 3, 0], capacity := 4, len := 3 }).data 2
      = Utils.Buf.ofList [1, 2, 3, 0] 2 :=
  ⟨by decide, by decide, by decide,
    (erase_clears_current_capacity 2
      { data := Utils.Buf.ofList [1, 2, 3, 0], capacity := 4, len := 3 }).2.2.2 2 (by decide)⟩

/-! ## C19 -/

/-- C19 (the code departs from it): the constructors compare nothing with the
capacity. For every length, within the capacity or not, the buffer
constructor yields a packet over storage of `bufSize` chars whose `getLen()`
is that length and which holds the `len` bytes of `X` from offset 0 on, behind
the storage too when `len` exceeds `bufSize`; so `getLen() ≤ capacity` holds
only if the caller kept `len ≤ bufSize`. The string constructor does the same
with `strlen` of its argument. -/
theorem constructor_copies_unchecked (bufSize : Nat) (fresh X : Utils.Buf) (len : Nat) :
    (RspPacket.fromBuffer bufSize fresh X len).getLen = len ∧
    (RspPacket.fromBuffer bufSize fresh X len).capacity = bufSize ∧
    (∀ i, i < len → (RspPacket.fromBuffer bufSize fresh X len).data i = X i) ∧
    (∀ i, len ≤ i → i < bufSize → (RspPacket.fromBuffer bufSize fresh X len).data i = 0) ∧
    (∀ i, len ≤ i → bufSize ≤ i → (RspPacket.fromBuffer bufSize fresh X len).data i = fresh i) ∧
    ((RspPacket.fromBuffer bufSize fresh X len).getLen
        ≤ (RspPacket.fromBuffer bufSize fresh X len).capacity ↔ len ≤ bufSize) ∧
    (∀ fuel, Utils.strlenFrom X fuel 0 = some len →
      RspPacket.fromString bufSize fresh X fuel
        = some (RspPacket.fromBuffer bufSize fresh X len)) := by
  refine ⟨rfl, rfl, ?_, ?_, ?_, Iff.rfl, ?_⟩
  · intro i hi
    simp [RspPacket.fromBuffer, memcpy, hi]
  · intro i h1 h2
    simp [RspPacket.fromBuffer, memcpy, memsetZero, Nat.not_lt.mpr h1, h2]
  · intro i h1 h2
    simp [RspPacket.fromBuffer, memcpy, memsetZero, Nat.not_lt.mpr h1, Nat.not_lt.mpr h2]
  · intro fuel hf
    simp [RspPacket.fromString, RspPacket.fromBuffer, hf]

/-- C19 under capacity 4 with the five bytes of `"hello"`: both constructors
yield a packet with `getLen() = 5 > 4`, and the fifth byte `o` (111) is stored
at offset 4, behind the four chars that were allocated. -/
theorem constructor_copies_unchecked_witness :
    (RspPacket.fromBuffer 4 (Utils.Buf.ofList []) (Utils.Buf.ofList [104, 101, 108, 108, 111])
        5).getLen = 5
    ∧ (RspPacket.fromBuffer 4 (Utils.Buf.ofList []) (Utils.Buf.ofList [104, 101, 108, 108, 111])
        5).capacity = 4
    ∧ ¬ ((RspPacket.fromBuffer 4 (Utils.Buf.ofList [])
          (Utils.Buf.ofList [104, 101, 108, 108, 111]) 5).getLen
        ≤ (RspPacket.fromBuffer 4 (Utils.Buf.ofList [])
          (Utils.Buf.ofList [104, 101, 108, 108, 111]) 5).capacity)
    ∧ (RspPacket.fromString 4 (Utils.Buf.ofList []) (Utils.Buf.ofList [104, 101, 108, 108, 111])
        6).map (fun p => (p.getLen, p.capacity, p.data 4)) = some (5, 4, 111)
    ∧ (RspPacket.fromBuffer 4 (Utils.Buf.ofList []) (Utils.Buf.ofList [104, 101, 108, 108, 111])
        5).data 4 = Utils.Buf.ofList [104, 101, 108, 108, 111] 4 :=
  ⟨by decide, by decide, by decide, by decide,
    (constructor_copies_unchecked 4 (Utils.Buf.ofList [])
      (Utils.Buf.ofList [104, 101, 108, 108, 111]) 5).2.2.1 4 (by decide)⟩

namespace Utils

/-! ## `split` -/

/-- What the scan finds: nothing, and then no char of `l` satisfies `p`; or the
first char that satisfies `p`, after a stretch `t` of chars that do not. -/
theorem firstAt_spec (p : Char → Bool) (l : List Char) : ∀ i,
    (firstAt p l i = npos ∧ ∀ x, x ∈ l → p x = false) ∨
    (∃ t c rest, l = t ++ c :: rest ∧ (∀ x, x ∈ t → p x = false) ∧ p c = true ∧
      firstAt p l i = i + t.length) := by
  induction l with
  | nil => intro i; left; exact ⟨rfl, fun x hx => by simp at hx⟩
  | cons a l ih =>
    intro i
    unfold firstAt
    by_cases h : p a = true
    · right
      exact ⟨[], a, l, rfl, fun x hx => by simp at hx, h, by simp [h]⟩
    · have h' : p a = false := by simpa using h
      rw [if_neg h]
      rcases ih (i + 1) with ⟨h1, h2⟩ | ⟨t, c, rest, h1, h2, h3, h4⟩
      · left
        refine ⟨h1, fun x hx => ?_⟩
        rcases List.mem_cons.mp hx with e | e
        · rw [e]; exact h'
        · exact h2 x e
      · right
        refine ⟨a :: t, c, rest, by rw [h1]; rfl, fun x hx => ?_, h3, by rw [h4]; simp; omega⟩
        rcases List.mem_cons.mp hx with e | e
        · rw [e]; exact h'
        · exact h2 x e

theorem isEmpty_snoc (l : List Char) (a : Char) : (l ++ [a]).isEmpty = false := by
  cases l <;> rfl

theorem runsFrom_nil (delim acc : List Char) :
    runsFrom delim [] acc = if acc = [] then [] else [acc.reverse] := by
  cases acc <;> simp [runsFrom, List.splitOnP.go, List.filter, isEmpty_snoc]

theorem runsFrom_delim (delim : List Char) (c : Char) (cs acc : List Char) (h : c ∈ delim) :
    runsFrom delim (c :: cs) acc
      = if acc = [] then runsFrom delim cs [] else acc.reverse :: runsFrom delim cs [] := by
  cases acc <;> simp [runsFrom, List.splitOnP.go, List.filter, h, isEmpty_snoc]

theorem runsFrom_plain (delim : List Char) (t rest : List Char) : ∀ acc,
    (∀ x, x ∈ t → x ∉ delim) →
    runsFrom delim (t ++ rest) acc = runsFrom delim rest (t.reverse ++ acc) := by
  induction t with
  | nil => intro acc _; rfl
  | cons a t ih =>
    intro acc h
    have ha : a ∉ delim := h a (by simp)
    have := ih (a :: acc) (fun x hx => h x (by simp [hx]))
    simp only [List.reverse_cons, List.append_assoc, List.singleton_append]
    rw [← this]
    simp [runsFrom, List.splitOnP.go, ha]

theorem runsFrom_skip (delim : List Char) (d rest : List Char) :
    (∀ x, x ∈ d → x ∈ delim) → runsFrom delim (d ++ rest) [] = runsFrom delim rest [] := by
  induction d with
  | nil => intro _; rfl
  | cons a d ih =>
    intro h
    rw [List.cons_append, runsFrom_delim _ _ _ _ (h a (by simp)), if_pos rfl]
    exact ih (fun x hx => h x (by simp [hx]))

theorem tokenRuns_eq (s delim : List Char) : tokenRuns s delim = runsFrom delim s [] := rfl

theorem drop_add_append (s : List Char) (a : Nat) (t u : List Char) (h : s.drop a = t ++ u) :
    s.drop (a + t.length) = u := by
  rw [← List.drop_drop, h, List.drop_left]

/-- One pass of the loop of `split` after another: from a position `start`
that follows the delimiter found last, the loop appends the runs of what is
left of `s`. -/
theorem splitLoop_spec (s delim : List Char) (hs : s.length < npos) :
    ∀ (fuel start next : Nat) (elems : List (List Char)),
    start = (next + 1) % 2 ^ 64 → start ≤ s.length → s.length - start < fuel →
    splitLoop s delim fuel next elems = some (elems ++ runsFrom delim (s.drop start) []) := by
  have hnpos : npos = 2 ^ 64 - 1 := rfl
  intro fuel
  induction fuel with
  | zero => intro start next elems _ _ h; omega
  | succ fuel ih =>
    intro start next elems hstart hle hfuel
    have hlen : (s.drop start).length = s.length - start := List.length_drop _ _
    rw [splitLoop]
    simp only [find_first_not_of, find_first_of, substr, ← hstart]
    rcases firstAt_spec (fun c => !decide (c ∈ delim)) (s.drop start) start with
      ⟨h1, h2⟩ | ⟨d, c, rest1, h1, h2, h3, h4⟩
    · rw [h1, if_pos rfl]
      have := runsFrom_skip delim (s.drop start) [] (fun x hx => by simpa using h2 x hx)
      rw [List.append_nil] at this
      rw [this, runsFrom_nil, if_pos rfl, List.append_nil]
    · have hc : c ∉ delim := by simpa using h3
      have hd : ∀ x, x ∈ d → x ∈ delim := fun x hx => by simpa using h2 x hx
      have hl1 : s.length - start = d.length + (rest1.length + 1) := by
        rw [← hlen, h1]; simp
      have hdrop : s.drop (start + d.length) = c :: rest1 := drop_add_append s start d _ h1
      rw [h4, if_neg (by omega), hdrop, h1, runsFrom_skip delim d _ hd]
      rcases firstAt_spec (fun c => decide (c ∈ delim)) (c :: rest1) (start + d.length) with
        ⟨h5, h6⟩ | ⟨t, c2, rest2, h5, h6, h7, h8⟩
      · rw [h5]
        simp only [ne_eq, not_true_eq_false, if_false]
        rw [List.take_of_length_le (by simp only [List.length_cons]; omega)]
        have := runsFrom_plain delim (c :: rest1) [] []
          (fun x hx => by simpa using h6 x hx)
        rw [List.append_nil] at this
        rw [this, runsFrom_nil, if_neg (by simp), List.append_nil, List.reverse_reverse]
      · have hc2 : c2 ∈ delim := by simpa using h7
        have ht : ∀ x, x ∈ t → x ∉ delim := fun x hx => by simpa using h6 x hx
        have hl2 : rest1.length + 1 = t.length + (rest2.length + 1) := by
          have := congrArg List.length h5
          simpa using this
        have htne : t ≠ [] := by
          intro e
          subst e
          simp only [List.nil_append, List.cons.injEq] at h5
          exact hc (h5.1 ▸ hc2)
        have hdrop2 : s.drop (start + d.length + t.length + 1) = rest2 := by
          have h9 : s.drop (start + d.length) = t ++ ([c2] ++ rest2) := by rw [hdrop, h5]; rfl
          have h10 := drop_add_append s _ t _ h9
          exact drop_add_append s _ [c2] _ h10
        rw [h8, if_pos (by omega),
          show (start + d.length + t.length + 2 ^ 64 - (start + d.length)) % 2 ^ 64 = t.length by
            omega,
          h5, List.take_left,
          ih (start + d.length + t.length + 1) (start + d.length + t.length) (elems ++ [t])
            (by omega) (by omega) (by omega),
          hdrop2, runsFrom_plain delim t _ [] ht, List.append_nil,
          runsFrom_delim delim c2 rest2 _ hc2, if_neg (by simpa using htne),
          List.reverse_reverse]
        simp

/-- No piece of `splitOnP` holds a char that satisfies the predicate. -/
theorem splitOnP_go_no_delim (p : Char → Bool) (l : List Char) : ∀ acc,
    (∀ x, x ∈ acc → p x = false) →
    ∀ t, t ∈ List.splitOnP.go p l acc → ∀ x, x ∈ t → p x = false := by
  induction l with
  | nil =>
    intro acc h t ht x hx
    simp only [List.splitOnP.go, List.mem_singleton] at ht
    subst ht
    exact h x (List.mem_reverse.mp hx)
  | cons a l ih =>
    intro acc h t ht x hx
    unfold List.splitOnP.go at ht
    by_cases hp : p a = true
    · rw [if_pos hp] at ht
      rcases List.mem_cons.mp ht with e | e
      · subst e
        exact h x (List.mem_reverse.mp hx)
      · exact ih [] (fun y hy => by simp at hy) t e x hx
    · rw [if_neg hp] at ht
      refine ih (a :: acc) (fun y hy => ?_) t ht x hx
      rcases List.mem_cons.mp hy with e | e
      · rw [e]; simpa using hp
      · exact h y e

/-- The pieces of `splitOnP`, put together, are the chars that do not satisfy
the predicate. -/
theorem splitOnP_go_flatten (p : Char → Bool) (l : List Char) : ∀ acc,
    (List.splitOnP.go p l acc).flatten = acc.reverse ++ l.filter (fun c => !p c) := by
  induction l with
  | nil => intro acc; simp [List.splitOnP.go]
  | cons a l ih =>
    intro acc
    unfold List.splitOnP.go
    by_cases hp : p a = true
    · rw [if_pos hp, List.flatten_cons, ih]
      simp [hp]
    · rw [if_neg hp, ih]
      have : p a = false := by simpa using hp
      simp [this]

theorem flatten_filter_nonempty (L : List (List Char)) :
    (L.filter (fun t => !t.isEmpty)).flatten = L.flatten := by
  induction L with
  | nil => rfl
  | cons t L ih =>
    cases t with
    | nil => simpa [List.filter] using ih
    | cons a t => simp [List.filter, ih]

/-! ## C15 -/

/-- C15: for every string `s` (shorter than `npos`, as every `std::string`
is), every delimiter set and every prior content of `elems`, `split` returns
and leaves in `elems` exactly the maximal non-empty runs of non-delimiter chars
of `s` in order, that is `s` cut at every delimiter with the empty pieces
dropped: no token is empty, no token holds a delimiter, and the tokens put
together are `s` without its delimiter chars. -/
theorem split_tokenRuns (s delim : List Char) (elems : List (List Char))
    (hs : s.length < 2 ^ 64 - 1) :
    ∃ toks, split s delim elems = some toks ∧
      toks = (s.splitOnP (fun c => decide (c ∈ delim))).filter (fun t => !t.isEmpty) ∧
      (∀ t, t ∈ toks → t ≠ []) ∧
      (∀ t, t ∈ toks → ∀ c, c ∈ t → c ∉ delim) ∧
      toks.flatten = s.filter (fun c => !decide (c ∈ delim)) := by
  have h := splitLoop_spec s delim hs (s.length + 1) 0 npos [] (by decide) (by omega) (by omega)
  refine ⟨tokenRuns s delim, ?_, rfl, ?_, ?_, ?_⟩
  · unfold split
    rw [List.take_zero, h]
    rfl
  · intro t ht
    have := (List.mem_filter.mp ht).2
    intro e
    subst e
    simp at this
  · intro t ht c hc
    have h1 := splitOnP_go_no_delim (fun c => decide (c ∈ delim)) s []
      (fun x hx => by simp at hx) t (List.mem_filter.mp ht).1 c hc
    simpa using h1
  · unfold tokenRuns
    rw [flatten_filter_nonempty]
    exact splitOnP_go_flatten (fun c => decide (c ∈ delim)) s []

/-- C15 at `split("a,,b; c", ",; ")`, which is `["a", "b", "c"]` whatever
`elems` held, and at a string of delimiters only, which gives no token. -/
theorem split_tokenRuns_witness :
    split "a,,b; c".toList ",; ".toList ["old".toList]
      = some ["a".toList, "b".toList, "c".toList]
    ∧ split ",;,".toList ",; ".toList [] = some []
    ∧ ∃ toks, split "a,,b; c".toList ",; ".toList ["old".toList] = some toks ∧
      toks = ("a,,b; c".toList.splitOnP (fun c => decide (c ∈ ",; ".toList))).filter
        (fun t => !t.isEmpty) ∧
      (∀ t, t ∈ toks → t ≠ []) ∧
      (∀ t, t ∈ toks → ∀ c, c ∈ t → c ∉ ",; ".toList) ∧
      toks.flatten = "a,,b; c".toList.filter (fun c => !decide (c ∈ ",; ".toList)) :=
  ⟨by decide, by decide,
    split_tokenRuns "a,,b; c".toList ",; ".toList ["old".toList] (by decide)⟩

/-! ## `str2int` -/

theorem c_str_of_no_nul (text : List Char) (h : ∀ c, c ∈ text → c.toNat ≠ 0) :
    c_str text = text := by
  unfold c_str
  rw [List.takeWhile_eq_self_iff]
  intro c hc
  simpa using h c hc

theorem str2int_of_strtol (i : Int) (text : List Char) (base : Int) (r : StrtolResult)
    (h : strtol (c_str text) base = some r) :
    str2int i text base =
      if (r.erange ∧ r.val = LONG_MAX) ∨ r.val > INT_MAX then some (false, i)
      else if (r.erange ∧ r.val = LONG_MIN) ∨ r.val < INT_MIN then some (false, i)
      else if c_str text = [] ∨ r.endPos < (c_str text).length then some (false, i)
      else some (true, r.val) := by
  unfold str2int
  simp only [h]

/-! ## C16 -/

/-- C16 fails as stated: the string of the four chars `1`, `2`, NUL, `a` is
not empty, `strtol` consumes its first two chars only, and `str2int` in base
10 returns true with `i = 12`: `c_str()` ends the C string at the NUL and the
test `*end != 0` finds that NUL. -/
theorem str2int_accepts_text_behind_nul :
    str2int 7 ['1', '2', Char.ofNat 0, 'a'] 10 = some (true, 12)
    ∧ (strtol (c_str ['1', '2', Char.ofNat 0, 'a']) 10).map (fun r => r.endPos) = some 2
    ∧ 2 < ['1', '2', Char.ofNat 0, 'a'].length := by
  refine ⟨by decide, by decide, by decide⟩

/-- C16 as the code has it: for every string without a NUL char and every
base `strtol` is defined for (0 or 2..36), `str2int` returns false and leaves
`i` as it was when the string is empty, when `strtol` leaves at least one
char unconsumed (`endPos` is short of the length), and when the exact value
of the digits lies outside `[INT_MIN, INT_MAX]`. -/
theorem str2int_rejects (i : Int) (text : List Char) (base : Int)
    (hbase : base = 0 ∨ (2 ≤ base ∧ base ≤ 36)) (hnul : ∀ c, c ∈ text → c.toNat ≠ 0) :
    (text = [] → str2int i text base = some (false, i)) ∧
    (∀ r, strtol text base = some r → r.endPos < text.length →
      str2int i text base = some (false, i)) ∧
    (∀ v e, scanInteger text base.toNat = some (v, e) → (v < INT_MIN ∨ INT_MAX < v) →
      str2int i text base = some (false, i)) := by
  have hc := c_str_of_no_nul text hnul
  have hdef : ∃ r, strtol text base = some r := by
    unfold strtol
    rw [if_pos hbase]
    cases scanInteger text base.toNat with
    | none => exact ⟨_, rfl⟩
    | some p =>
      obtain ⟨v, e⟩ := p
      simp only
      split_ifs <;> exact ⟨_, rfl⟩
  refine ⟨?_, ?_, ?_⟩
  · intro he
    obtain ⟨r, hr⟩ := hdef
    rw [str2int_of_strtol i text base r (by rw [hc]; exact hr), hc]
    simp [he]
  · intro r hr hlt
    rw [str2int_of_strtol i text base r (by rw [hc]; exact hr), hc]
    simp [hlt]
  · intro v e hscan hv
    have hmax : INT_MAX < LONG_MAX := by decide
    have hmin : LONG_MIN < INT_MIN := by decide
    by_cases h1 : v > LONG_MAX
    · have hr : strtol text base = some { val := LONG_MAX, endPos := e, erange := true } := by
        unfold strtol
        rw [if_pos hbase, hscan]
        simp only [h1, if_true]
      rw [str2int_of_strtol i text base _ (by rw [hc]; exact hr)]
      simp
    · by_cases h2 : v < LONG_MIN
      · have hr : strtol text base = some { val := LONG_MIN, endPos := e, erange := true } := by
          unfold strtol
          rw [if_pos hbase, hscan]
          simp only [h1, h2, if_true, if_false]
        rw [str2int_of_strtol i text base _ (by rw [hc]; exact hr)]
        simp
      · have hr : strtol text base = some { val := v, endPos := e, erange := false } := by
          unfold strtol
          rw [if_pos hbase, hscan]
          simp only [h1, h2, if_false]
        rw [str2int_of_strtol i text base _ (by rw [hc]; exact hr)]
        rcases hv with hv | hv
        · have : ¬ v > INT_MAX := by
            have : INT_MIN < INT_MAX := by decide
            omega
          simp [hv, this]
        · simp [hv]

/-- C16 at `"12a"` and `""` in base 10 and at `"2147483648"`, one above
`INT_MAX`. -/
theorem str2int_rejects_witness :
    str2int 7 "12a".toList 10 = some (false, 7)
    ∧ str2int 7 "".toList 10 = some (false, 7)
    ∧ str2int 7 "2147483648".toList 10 = some (false, 7)
    ∧ str2int 7 ['1', '2', 'a'] 10 = some (false, 7) :=
  ⟨by decide, by decide, by decide,
    (str2int_rejects 7 ['1', '2', 'a'] 10 (by decide) (by decide)).2.1
      { val := 12, endPos := 2, erange := false } rfl (by decide)⟩

/-! ## `str2int` on integer literals -/

theorem foldl_digits (b : Nat) (ds : List Char) : ∀ a,
    ds.foldl (fun acc c => acc * b + (digitVal c).getD 0) a
      = Nat.ofDigits b ((ds.map fun c => (digitVal c).getD 0).reverse ++ [a]) := by
  induction ds with
  | nil => intro a; simp [Nat.ofDigits_singleton]
  | cons c ds ih =>
    intro a
    rw [List.foldl_cons, ih]
    simp only [List.map_cons, List.reverse_cons, List.append_assoc, List.singleton_append,
      Nat.ofDigits_append, Nat.ofDigits_cons, Nat.ofDigits_nil]
    ring

theorem digitsValue_eq_ofDigits (b : Nat) (ds : List Char) :
    digitsValue b ds = Nat.ofDigits b ((ds.map fun c => (digitVal c).getD 0).reverse) := by
  unfold digitsValue
  rw [foldl_digits]
  simp [Nat.ofDigits_append, Nat.ofDigits_singleton]

theorem digit_code (b : Nat) (c : Char) (h : isDigitIn b c = true) :
    (48 ≤ c.toNat ∧ c.toNat ≤ 57) ∨ (65 ≤ c.toNat ∧ c.toNat ≤ 90) ∨
      (97 ≤ c.toNat ∧ c.toNat ≤ 122) := by
  unfold isDigitIn digitVal at h
  split_ifs at h <;> simp_all

theorem isDigitIn_dec (d : Char) (hd : 49 ≤ d.toNat ∧ d.toNat ≤ 57) :
    isDigitIn 10 d = true ∧ d ≠ '0' := by
  constructor
  · unfold isDigitIn digitVal
    rw [if_pos (by omega)]
    simp only [decide_eq_true_eq]
    omega
  · intro e
    subst e
    exact absurd hd.1 (by decide)

theorem takeWhile_all (p : Char → Bool) (l : List Char) (h : ∀ c, c ∈ l → p c = true) :
    l.takeWhile p = l :=
  List.takeWhile_eq_self_iff.mpr h

theorem not_hexMark_of_oct (c : Char) (h : isDigitIn 8 c = true) : ¬ (c = 'x' ∨ c = 'X') := by
  rintro (e | e) <;> subst e <;> exact absurd h (by decide)

theorem hasHexMark_oct (ds : List Char) (hds : ∀ c, c ∈ ds → isDigitIn 8 c = true) :
    hasHexMark ('0' :: ds) 0 = false := by
  cases ds with
  | nil => rfl
  | cons a t =>
    cases t with
    | nil => rfl
    | cons b t =>
      have := not_hexMark_of_oct a (hds a (by simp))
      simp [hasHexMark, this]

theorem hasHexMark_dec (d : Char) (ds : List Char) (hd : d ≠ '0') :
    hasHexMark (d :: ds) 0 = false := by
  cases ds with
  | nil => rfl
  | cons a t =>
    cases t with
    | nil => rfl
    | cons b t => simp [hasHexMark, hd]

theorem scanUnsigned_literal (l : List Char) (n : Nat) (h : IntegerLiteral l n) :
    scanUnsigned l 0 = some (n, l.length) := by
  cases h with
  | hex x ds hx hne hds =>
    obtain ⟨d, ds1, rfl⟩ : ∃ d ds1, ds = d :: ds1 := by
      cases ds with
      | nil => exact absurd rfl hne
      | cons d ds1 => exact ⟨d, ds1, rfl⟩
    have hd := hds d (by simp)
    have ht := takeWhile_all (isDigitIn 16) (d :: ds1) hds
    have hm : hasHexMark ('0' :: x :: d :: ds1) 0 = true := by
      simp [hasHexMark, hx, hd]
    have hr : scanRadix ('0' :: x :: d :: ds1) 0 = 16 := by
      simp [scanRadix, hm]
    unfold scanUnsigned
    simp only [hm, hr, if_true, List.drop_succ_cons, List.drop_zero, ht]
    rw [if_neg (by simp), digitsValue_eq_ofDigits]
    simp only [List.length_cons]
    congr 2
    omega
  | oct ds hds =>
    have h0 : isDigitIn 8 '0' = true := by decide
    have hall : ∀ c, c ∈ '0' :: ds → isDigitIn 8 c = true := by
      intro c hc
      rcases List.mem_cons.mp hc with e | e
      · rw [e]; exact h0
      · exact hds c e
    have ht := takeWhile_all (isDigitIn 8) ('0' :: ds) hall
    have hm := hasHexMark_oct ds hds
    have hr : scanRadix ('0' :: ds) 0 = 8 := by
      simp [scanRadix, hm]
    unfold scanUnsigned
    simp only [hm, hr, Bool.false_eq_true, if_false, List.drop_zero, ht]
    rw [if_neg (by simp), digitsValue_eq_ofDigits]
    have hz : (digitVal '0').getD 0 = 0 := by decide
    simp [hz, Nat.ofDigits_append]
  | dec d ds hd hds =>
    obtain ⟨h1, h2⟩ := isDigitIn_dec d hd
    have hall : ∀ c, c ∈ d :: ds → isDigitIn 10 c = true := by
      intro c hc
      rcases List.mem_cons.mp hc with e | e
      · rw [e]; exact h1
      · exact hds c e
    have ht := takeWhile_all (isDigitIn 10) (d :: ds) hall
    have hm := hasHexMark_dec d ds h2
    have hr : scanRadix (d :: ds) 0 = 10 := by
      simp [scanRadix, hm, h2]
    unfold scanUnsigned
    simp only [hm, hr, Bool.false_eq_true, if_false, List.drop_zero, ht]
    rw [if_neg (by simp), digitsValue_eq_ofDigits]
    simp

theorem literal_head (l : List Char) (n : Nat) (h : IntegerLiteral l n) :
    ∃ c t, l = c :: t ∧ 48 ≤ c.toNat ∧ c.toNat ≤ 57 := by
  cases h with
  | hex x ds hx hne hds => exact ⟨'0', _, rfl, by decide, by decide⟩
  | oct ds hds => exact ⟨'0', _, rfl, by decide, by decide⟩
  | dec d ds hd hds => exact ⟨d, _, rfl, by omega, hd.2⟩

theorem literal_no_nul (l : List Char) (n : Nat) (h : IntegerLiteral l n) :
    ∀ c, c ∈ l → c.toNat ≠ 0 := by
  have hdig : ∀ (b : Nat) (ds : List Char), (∀ c, c ∈ ds → isDigitIn b c = true) →
      ∀ c, c ∈ ds → c.toNat ≠ 0 := by
    intro b ds hds c hc
    have := digit_code b c (hds c hc)
    omega
  cases h with
  | hex x ds hx hne hds =>
    intro c hc
    rcases List.mem_cons.mp hc with e | e
    · rw [e]; decide
    · rcases List.mem_cons.mp e with e | e
      · rcases hx with e2 | e2 <;> rw [e, e2] <;> decide
      · exact hdig 16 ds hds c e
  | oct ds hds =>
    intro c hc
    rcases List.mem_cons.mp hc with e | e
    · rw [e]; decide
    · exact hdig 8 ds hds c e
  | dec d ds hd hds =>
    intro c hc
    rcases List.mem_cons.mp hc with e | e
    · rw [e]; omega
    · exact hdig 10 ds hds c e

theorem head_facts (c : Char) (h1 : 48 ≤ c.toNat) (h2 : c.toNat ≤ 57) :
    isspace c = false ∧ c ≠ '-' ∧ c ≠ '+' := by
  refine ⟨?_, ?_, ?_⟩
  · unfold isspace
    simp only [Bool.or_eq_false_iff, decide_eq_false_iff_not, Bool.and_eq_false_imp,
      decide_eq_true_eq]
    omega
  · intro e; subst e; exact absurd h1 (by decide)
  · intro e; subst e; exact absurd h1 (by decide)

theorem scanInteger_signed (text : List Char) (v : Int) (h : SignedLiteral text v) :
    scanInteger text 0 = some (v, text.length) ∧ ∀ c, c ∈ text → c.toNat ≠ 0 := by
  cases h with
  | plain l n hl =>
    obtain ⟨c, t, rfl, h1, h2⟩ := literal_head _ n hl
    obtain ⟨h3, h4, h5⟩ := head_facts c h1 h2
    refine ⟨?_, literal_no_nul _ n hl⟩
    unfold scanInteger
    simp [List.takeWhile, h3, h4, h5, scanUnsigned_literal _ n hl]
  | plus l n hl =>
    refine ⟨?_, ?_⟩
    · unfold scanInteger
      have : isspace '+' = false := by decide
      simp [List.takeWhile, this, scanUnsigned_literal _ n hl]
      omega
    · intro c hc
      rcases List.mem_cons.mp hc with e | e
      · rw [e]; decide
      · exact literal_no_nul _ n hl c e
  | minus l n hl =>
    refine ⟨?_, ?_⟩
    · unfold scanInteger
      have : isspace '-' = false := by decide
      simp [List.takeWhile, this, scanUnsigned_literal _ n hl]
      omega
    · intro c hc
      rcases List.mem_cons.mp hc with e | e
      · rw [e]; decide
      · exact literal_no_nul _ n hl c e

/-! ## C17 -/

/-- C17: for every string that is an optional sign followed by a complete C
integer literal (`0x` or `0X` and hexadecimal digits read in base 16, a leading
`0` and octal digits read in base 8, otherwise decimal digits read in base 10)
whose value `v` lies in `[INT_MIN, INT_MAX]`, `str2int(i, text, 0)` returns true
and sets `i` to `v`. -/
theorem str2int_literal (i : Int) (text : List Char) (v : Int) (h : SignedLiteral text v)
    (hmin : INT_MIN ≤ v) (hmax : v ≤ INT_MAX) :
    str2int i text 0 = some (true, v) := by
  obtain ⟨h1, h2⟩ := scanInteger_signed text v h
  have hc := c_str_of_no_nul text h2
  have hlmax : INT_MAX < LONG_MAX := by decide
  have hlmin : LONG_MIN < INT_MIN := by decide
  have hne : text ≠ [] := by
    intro e
    subst e
    simp [scanInteger, scanUnsigned] at h1
  have hr : strtol text 0 = some { val := v, endPos := text.length, erange := false } := by
    unfold strtol
    rw [if_pos (Or.inl rfl)]
    simp only [Int.toNat_zero, h1]
    rw [if_neg (by omega), if_neg (by omega)]
  rw [str2int_of_strtol i text 0 _ (by rw [hc]; exact hr), hc]
  simp only [Bool.false_eq_true, false_and, false_or]
  rw [if_neg (by omega), if_neg (by omega), if_neg (by simp [hne])]

/-- C17 at `"123"`, `"0x1A"`, `"-017"` and `"-2147483648"`: 123, 26, -15 and
`INT_MIN`. -/
theorem str2int_literal_witness :
    str2int 7 "123".toList 0 = some (true, 123)
    ∧ str2int 7 "0x1A".toList 0 = some (true, 26)
    ∧ str2int 7 "-017".toList 0 = some (true, -15)
    ∧ str2int 7 "-2147483648".toList 0 = some (true, -2147483648)
    ∧ str2int 7 ['0', 'x', '1', 'A'] 0
        = some (true, ((Nat.ofDigits 16
            ((['1', 'A'].map fun c => (digitVal c).getD 0).reverse) : Nat) : Int)) :=
  ⟨by decide, by decide, by decide, by decide,
    str2int_literal 7 ['0', 'x', '1', 'A'] _
      (SignedLiteral.plain _ _
        (IntegerLiteral.hex 'x' ['1', 'A'] (Or.inl rfl) (by simp) (by decide)))
      (by decide) (by decide)⟩

end Utils
end EmbDebug
